/-
Verification development for the market-depth order-book pipeline of
terminal.py (tab3, the per-item CSV order-book view).

The embedding models, at the level the claims need:
  * catalog discovery (glob over *.csv, denylist, header sniff with nrows=2),
  * item-name derivation (Python str.replace of ".csv" by ""),
  * full load with pd.to_datetime on the timestamp / created_at columns
    (default errors mode: a non-missing unparseable value raises; a missing
    cell becomes the missing-value marker NaT, modelled as Option.none),
  * snapshot selection (str round-trip through the selectbox, pandas
    equality filter in which NaT compares unequal to everything),
  * the bid/ask partition and the price sort.  pandas sort_values defaults
    to kind quicksort, i.e. numpy's introsort (aquicksort in
    npysort/quicksort.c.src: median-of-3 quicksort with an explicit stack,
    insertion sort below SMALL_QUICKSORT+2 elements, heapsort fallback when
    the depth budget 2*msb(n) is exhausted).  That algorithm is translated
    here faithfully, operating on an index list (argsort) exactly as pandas
    nargsort drives it (for descending order: reverse, argsort, reverse).
  * the cumulative-quantity depth curve (cumsum).

Snapshot keys are abstracted to decimal naturals: the external datetime
value parser is a parameter (dtParse); concrete witnesses instantiate it
with natParse, and the selectbox rendering str(key) is renderKey.
Prices and quantities are integers (numeric CSV data).
-/
import Mathlib

set_option maxRecDepth 10000

/-! ## Data model -/

/-- One loaded order-book row: parsed snapshot key (none = NaT missing
marker), side string, price and quantity. -/
structure Row where
  key : Option Nat
  side : String
  price_vnd : Int
  quantity : Int
deriving DecidableEq, Repr

/-- Default row used for positional getD lookups (price 0 so that price
lookups through indices agree with lookups in the price column). -/
def rowDefault : Row := { key := none, side := "", price_vnd := 0, quantity := 0 }

/-- One raw CSV row before datetime parsing: the timestamp and created_at
cells are raw strings (none = empty/missing cell). -/
structure RawRow where
  ts : Option String
  created : Option String
  side : String
  price_vnd : Int
  quantity : Int
deriving DecidableEq, Repr

/-- A raw CSV table: header column names plus rows. -/
structure RawTable where
  cols : List String
  rows : List RawRow
deriving DecidableEq, Repr

/-- A directory entry: file name, the classification read
(pd.read_csv(f, nrows=2), surfacing either the header columns or a read
failure) and the later full read (pd.read_csv(f)).  The two reads are
recorded separately because the file may change between them. -/
structure DirFile where
  name : String
  sniff : Except Unit (List String)
  full : Except Unit RawTable
deriving Repr

/-- A loaded table: the column set of the source file plus parsed rows. -/
structure LoadedTable where
  cols : List String
  rows : List Row
deriving DecidableEq, Repr

/-- Discriminates the error case of an Except result. -/
def isErr {α : Type} : Except Unit α → Bool
  | .error _ => true
  | .ok _ => false

/-! ## CsvCatalog: discovery (terminal.py lines 420-432) -/

/-- The denylist of well-known aggregate CSV names (the ignore set). -/
def ignoreList : List String :=
  ["steam_prices.csv", "tf2_orders.csv", "tf2_listings.csv", "supply_data.csv",
   "monitor_data.csv", "alerts.csv", "supply.csv"]

/-- Tests whether the second list starts with the first. -/
def listStartsWith : List Char → List Char → Bool
  | [], _ => true
  | _ :: _, [] => false
  | c :: ps, d :: ls => c == d && listStartsWith ps ls

/-- Python glob("*.csv"): name ends with ".csv"; glob skips names that
start with a dot. -/
def globCsvMatch (s : String) : Bool :=
  listStartsWith (".csv".data.reverse) s.data.reverse && !(listStartsWith ['.'] s.data)

/-- The required header columns tested by issubset on df_tmp.columns. -/
def requiredCols : List String := ["side", "price_vnd", "quantity"]

/-- A file qualifies iff its classification read succeeds and the header
column set contains side, price_vnd and quantity; a read failure is
treated as non-qualifying (the except/continue branch). -/
def sniffOk (f : DirFile) : Bool :=
  match f.sniff with
  | .error _ => false
  | .ok cols => requiredCols.all (fun c => cols.contains c)

/-- Stable insertion of a file into a name-ascending list (the building
block of Python sorted on filenames). -/
def insFileByName (f : DirFile) : List DirFile → List DirFile
  | [] => [f]
  | g :: t => if f.name < g.name then f :: g :: t else g :: insFileByName f t

/-- Python sorted on filenames: a stable comparison sort, ascending and
lexicographic by code points. -/
def pySortedFiles (l : List DirFile) : List DirFile :=
  l.foldl (fun acc f => insFileByName f acc) []

/-- possible_csvs: sorted([f for f in glob.glob("*.csv") if f not in ignore]). -/
def possible_csvs (dir : List DirFile) : List DirFile :=
  pySortedFiles (dir.filter (fun f => globCsvMatch f.name && !(ignoreList.contains f.name)))

/-- orderbook_files: the qualifying files kept in sorted order. -/
def orderbook_files (dir : List DirFile) : List DirFile :=
  (possible_csvs dir).filter sniffOk

/-! ## Item name derivation: f.replace(".csv", "") (line 436) -/

/-- Python str.replace with a non-empty pattern: scan left to right,
replacing every non-overlapping occurrence (here by the empty string,
i.e. dropping it).  Fuel-driven; fuel = length of the scanned list
suffices since each step consumes at least one character. -/
def repAll (p : List Char) : Nat → List Char → List Char
  | _, [] => []
  | 0, l => l
  | fuel+1, c :: t =>
    if listStartsWith p (c :: t) then repAll p fuel ((c :: t).drop p.length)
    else c :: repAll p fuel t

/-- item_name: f.replace(".csv", "") as executed by Python str.replace
(every occurrence of ".csv" is removed, not only a trailing suffix). -/
def item_name (f : String) : String := String.mk (repAll ".csv".data f.data.length f.data)

/-! ## OrderBookLoader (lines 439-451) -/

/-- Which column supplies the snapshot key:
snap_col = "timestamp" if present else "created_at" if present else None. -/
inductive KeyCol | timestamp | created_at
deriving DecidableEq, Repr

/-- snap_col selection from the header columns. -/
def snap_col (cols : List String) : Option KeyCol :=
  if cols.contains "timestamp" then some .timestamp
  else if cols.contains "created_at" then some .created_at
  else none

/-- pd.to_datetime on one cell with the default errors mode: a missing
cell (NaN) passes through as the missing marker NaT; a present string
that the datetime parser rejects raises (the error case). -/
def to_datetime_cell (dtParse : String → Option Nat) : Option String → Except Unit (Option Nat)
  | none => .ok none
  | some s =>
    match dtParse s with
    | some d => .ok (some d)
    | none => .error ()

/-- pd.to_datetime over a whole column: the first raising cell aborts the
conversion. -/
def to_datetime_col (dtParse : String → Option Nat) :
    List (Option String) → Except Unit (List (Option Nat))
  | [] => .ok []
  | c :: t => do
    let v ← to_datetime_cell dtParse c
    let vs ← to_datetime_col dtParse t
    .ok (v :: vs)

/-- The timestamp column after line 441-442: converted when the column
exists, otherwise every key source defaults to the missing marker. -/
def tsColResult (dtParse : String → Option Nat) (rt : RawTable) :
    Except Unit (List (Option Nat)) :=
  if rt.cols.contains "timestamp" then to_datetime_col dtParse (rt.rows.map (·.ts))
  else .ok (rt.rows.map (fun _ => none))

/-- The created_at column after line 443-444. -/
def createdColResult (dtParse : String → Option Nat) (rt : RawTable) :
    Except Unit (List (Option Nat)) :=
  if rt.cols.contains "created_at" then to_datetime_col dtParse (rt.rows.map (·.created))
  else .ok (rt.rows.map (fun _ => none))

/-- Attach the chosen key column to the raw rows. -/
def mkRows (rrows : List RawRow) (keys : List (Option Nat)) : List Row :=
  (rrows.zip keys).map
    (fun rk => { key := rk.2, side := rk.1.side,
                 price_vnd := rk.1.price_vnd, quantity := rk.1.quantity })

/-- The key list selected by snap_col: the parsed timestamp column, the
parsed created_at column, or all-missing when neither column exists. -/
def keyColumn (tsKeys createdKeys : List (Option Nat)) (rt : RawTable) : List (Option Nat) :=
  match snap_col rt.cols with
  | some .timestamp => tsKeys
  | some .created_at => createdKeys
  | none => rt.rows.map (fun _ => none)

/-- The full load (lines 439-445): read the file, then convert the
timestamp column if present and the created_at column if present (both
conversions run, each can raise), then attach to every row the key taken
from snap_col (or none when neither column exists). -/
def loadTable (dtParse : String → Option Nat) (rt : RawTable) : Except Unit LoadedTable := do
  let tsKeys ← tsColResult dtParse rt
  let createdKeys ← createdColResult dtParse rt
  .ok { cols := rt.cols, rows := mkRows rt.rows (keyColumn tsKeys createdKeys rt) }

/-- tab3 loading of the selected file: the full read at line 439 is not
guarded by any try/except, so a read failure propagates. -/
def tab3Load (dtParse : String → Option Nat) (f : DirFile) : Except Unit LoadedTable := do
  let rt ← f.full
  loadTable dtParse rt

/-! ## Snapshot selection (lines 446-451) -/

/-- pandas datetime64 equality against a scalar: NaT compares unequal to
everything, including NaT itself. -/
def keyEq : Option Nat → Option Nat → Bool
  | some a, some b => a == b
  | _, _ => false

/-- Decimal digit character of a digit value. -/
def digitChar : Nat → Char
  | 0 => '0' | 1 => '1' | 2 => '2' | 3 => '3' | 4 => '4'
  | 5 => '5' | 6 => '6' | 7 => '7' | 8 => '8' | _ => '9'

/-- Digit value of a decimal character. -/
def digitVal (c : Char) : Option Nat :=
  if '0' ≤ c ∧ c ≤ '9' then some (c.toNat - '0'.toNat) else none

/-- Little-endian decimal digits of n (fuel-driven, fuel ≥ n suffices). -/
def toDigitsRev : Nat → Nat → List Nat
  | 0, n => [n % 10]
  | fuel+1, n => if n < 10 then [n] else (n % 10) :: toDigitsRev fuel (n / 10)

/-- Decimal rendering of a natural number. -/
def renderNat (n : Nat) : List Char := ((toDigitsRev n n).reverse).map digitChar

/-- str(key) as shown in the snapshot selectbox: a datetime key renders
as its (abstracted) decimal text, the missing marker renders as "NaT". -/
def renderKey : Option Nat → String
  | none => "NaT"
  | some n => String.mk (renderNat n)

/-- Decimal parse accumulator. -/
def parseNatAux : List Char → Nat → Option Nat
  | [], acc => some acc
  | c :: t, acc =>
    match digitVal c with
    | none => none
    | some d => parseNatAux t (acc * 10 + d)

/-- The concrete model datetime-value parser used by witnesses: a
non-empty all-digit string parses to the natural it denotes, anything
else fails to parse. -/
def natParse (s : String) : Option Nat :=
  if s.data.isEmpty then none else parseNatAux s.data 0

/-- pd.to_datetime(selected_snap) on the selectbox string: "NaT" parses
back to NaT, otherwise the scalar parser runs and raises on failure. -/
def parseChosen (dtParse : String → Option Nat) (s : String) : Except Unit (Option Nat) :=
  if s = "NaT" then .ok none
  else
    match dtParse s with
    | some n => .ok (some n)
    | none => .error ()

/-- snap_df (lines 446-451): when snap_col is None the whole table is the
single implicit snapshot; otherwise the chosen selectbox string is parsed
back to a datetime and the rows are filtered by pandas equality. -/
def tab3SnapDf (dtParse : String → Option Nat) (t : LoadedTable) (chosen : String) :
    Except Unit (List Row) :=
  match snap_col t.cols with
  | none => .ok t.rows
  | some _ => do
    let k ← parseChosen dtParse chosen
    .ok (t.rows.filter (fun r => keyEq r.key k))

/-- The snapshot export (lines 491-497): snap_df.to_csv(index=False)
serialises the pre-partition snapshot rows with the table's column set. -/
def tab3Export (dtParse : String → Option Nat) (f : DirFile) (chosen : String) :
    Except Unit (List String × List Row) := do
  let t ← tab3Load dtParse f
  let sel ← tab3SnapDf dtParse t chosen
  .ok (t.cols, sel)

/-- pandas Series.unique: first-occurrence order deduplication. -/
def pdUnique (l : List (Option Nat)) : List (Option Nat) :=
  l.foldl (fun acc x => if acc.contains x then acc else acc ++ [x]) []

/-- Python comparison on snapshot keys: NaT is less than nothing and
nothing is less than NaT. -/
def pyLtKey : Option Nat → Option Nat → Bool
  | some a, some b => decide (a < b)
  | _, _ => false

/-- Stable ascending insertion with the Python key comparison. -/
def insKeyAsc (x : Option Nat) : List (Option Nat) → List (Option Nat)
  | [] => [x]
  | y :: t => if pyLtKey x y then x :: y :: t else y :: insKeyAsc x t

/-- sorted(keys, reverse=True): a stable comparison sort run descending
(CPython reverses around an ascending stable sort). -/
def pySortedDesc (l : List (Option Nat)) : List (Option Nat) :=
  ((l.reverse.foldl (fun acc x => insKeyAsc x acc) []).reverse)

/-- available_snaps = sorted(df[snap_col].unique(), reverse=True). -/
def availableSnaps (t : LoadedTable) : List (Option Nat) :=
  pySortedDesc (pdUnique (t.rows.map (·.key)))

/-! ## numpy argsort, kind=quicksort (npysort/quicksort.c.src, aquicksort)

The index list tosort is permuted; v is read-only.  All loops are
fuel-driven with generous fuel; every branch returns a permutation of the
incoming index list by construction. -/

/-- Compares the values under two tosort slots. -/
def lt_at (v : List Int) (ts : List Nat) (a b : Nat) : Bool :=
  decide (v.getD (ts.getD a 0) 0 < v.getD (ts.getD b 0) 0)

/-- INTP_SWAP of two tosort slots (in-bounds guarded; the C code only
reaches in-bounds slots). -/
def lswap (l : List Nat) (i j : Nat) : List Nat :=
  if i < l.length && j < l.length then (l.set i (l.getD j 0)).set j (l.getD i 0) else l

/-- do ++pi; while (v[tosort[pi]] < vp). -/
def scanUp (v : List Int) (vp : Int) : Nat → Nat → List Nat → Nat
  | 0, pi, _ => pi + 1
  | fuel+1, pi, ts =>
    if v.getD (ts.getD (pi + 1) 0) 0 < vp then scanUp v vp fuel (pi + 1) ts else pi + 1

/-- do --pj; while (vp < v[tosort[pj]]). -/
def scanDown (v : List Int) (vp : Int) : Nat → Nat → List Nat → Nat
  | 0, pj, _ => pj - 1
  | fuel+1, pj, ts =>
    if vp < v.getD (ts.getD (pj - 1) 0) 0 then scanDown v vp fuel (pj - 1) ts else pj - 1

/-- The partition exchange loop: scan up, scan down, swap until the
scans cross; returns the crossing point pi and the permuted tosort. -/
def partLoop (v : List Int) (vp : Int) (sfuel : Nat) :
    Nat → Nat → Nat → List Nat → Nat × List Nat
  | 0, pi, _, ts => (pi, ts)
  | fuel+1, pi, pj, ts =>
    let pi2 := scanUp v vp sfuel pi ts
    let pj2 := scanDown v vp sfuel pj ts
    if pj2 ≤ pi2 then (pi2, ts)
    else partLoop v vp sfuel fuel pi2 pj2 (lswap ts pi2 pj2)

/-- numpy SMALL_QUICKSORT threshold. -/
def SMALL_QUICKSORT : Nat := 15

/-- Median-of-3 step 1: if v[tosort[pm]] < v[tosort[pl]] swap the pm and
pl slots. -/
def qsT1 (v : List Int) (pl pr : Nat) (ts : List Nat) : List Nat :=
  if lt_at v ts (pl + (pr - pl) / 2) pl then lswap ts (pl + (pr - pl) / 2) pl else ts

/-- Median-of-3 step 2: if v[tosort[pr]] < v[tosort[pm]] swap the pr and
pm slots. -/
def qsT2 (v : List Int) (pl pr : Nat) (ts : List Nat) : List Nat :=
  if lt_at v (qsT1 v pl pr ts) pr (pl + (pr - pl) / 2) then
    lswap (qsT1 v pl pr ts) pr (pl + (pr - pl) / 2)
  else qsT1 v pl pr ts

/-- Median-of-3 step 3: the repeated pm/pl comparison and swap. -/
def qsT3 (v : List Int) (pl pr : Nat) (ts : List Nat) : List Nat :=
  if lt_at v (qsT2 v pl pr ts) (pl + (pr - pl) / 2) pl then
    lswap (qsT2 v pl pr ts) (pl + (pr - pl) / 2) pl
  else qsT2 v pl pr ts

/-- The pivot value vp = v[tosort[pm]] after the median-of-3 swaps. -/
def qsVp (v : List Int) (pl pr : Nat) (ts : List Nat) : Int :=
  v.getD ((qsT3 v pl pr ts).getD (pl + (pr - pl) / 2) 0) 0

/-- Move the pivot slot out of the way: swap pm with pr-1. -/
def qsT4 (v : List Int) (pl pr : Nat) (ts : List Nat) : List Nat :=
  lswap (qsT3 v pl pr ts) (pl + (pr - pl) / 2) (pr - 1)

/-- The partition exchange phase: crossing point and permuted slots. -/
def qsPart (v : List Int) (sfuel pl pr : Nat) (ts : List Nat) : Nat × List Nat :=
  partLoop v (qsVp v pl pr ts) sfuel sfuel pl (pr - 1) (qsT4 v pl pr ts)

/-- The crossing point pi of the partition. -/
def qsPi (v : List Int) (sfuel pl pr : Nat) (ts : List Nat) : Nat :=
  (qsPart v sfuel pl pr ts).1

/-- Drop the pivot back into the crossing point: swap pi with pr-1. -/
def qsT6 (v : List Int) (sfuel pl pr : Nat) (ts : List Nat) : List Nat :=
  lswap (qsPart v sfuel pl pr ts).2 (qsPi v sfuel pl pr ts) (pr - 1)

/-- The inner while of aquicksort: as long as the segment [pl, pr] is
longer than SMALL_QUICKSORT+1, pick the median-of-3 pivot, partition,
push the larger half (with the decremented depth budget) and loop on the
smaller half. -/
def qsWhile (v : List Int) (sfuel : Nat) :
    Nat → Nat → Nat → Int → List (Nat × Nat × Int) → List Nat →
    Nat × Nat × Int × List (Nat × Nat × Int) × List Nat
  | 0, pl, pr, cdepth, stack, ts => (pl, pr, cdepth, stack, ts)
  | fuel+1, pl, pr, cdepth, stack, ts =>
    if SMALL_QUICKSORT < pr - pl then
      if qsPi v sfuel pl pr ts - pl < pr - qsPi v sfuel pl pr ts then
        qsWhile v sfuel fuel pl (qsPi v sfuel pl pr ts - 1) (cdepth - 1)
          ((qsPi v sfuel pl pr ts + 1, pr, cdepth - 1) :: stack) (qsT6 v sfuel pl pr ts)
      else
        qsWhile v sfuel fuel (qsPi v sfuel pl pr ts + 1) pr (cdepth - 1)
          ((pl, qsPi v sfuel pl pr ts - 1, cdepth - 1) :: stack) (qsT6 v sfuel pl pr ts)
    else (pl, pr, cdepth, stack, ts)

/-- Insertion of an index into an already ascending index list: it goes
after every index whose value is not strictly greater (the shift-while
v[vi] < v[tosort[pk]] of the C insertion sort). -/
def insIdx (v : List Int) (i : Nat) : List Nat → List Nat
  | [] => [i]
  | j :: t => if v.getD i 0 < v.getD j 0 then i :: j :: t else j :: insIdx v i t

/-- The C insertion sort of a whole index segment, functionally: fold the
stable insertion over the segment left to right. -/
def insArgsort (v : List Int) (seg : List Nat) : List Nat :=
  seg.foldl (fun acc i => insIdx v i acc) []

/-- Insertion sort of the tosort slots pl..pr (inclusive), leaving the
rest in place. -/
def insortSeg (v : List Int) (pl pr : Nat) (ts : List Nat) : List Nat :=
  if pl ≤ pr then
    ts.take pl ++ insArgsort v ((ts.drop pl).take (pr + 1 - pl)) ++ ts.drop (pr + 1)
  else ts

/-- 1-indexed read into a heap segment (aheapsort offsets the array by
one). -/
def hget (a : List Nat) (k : Nat) : Nat := a.getD (k - 1) 0

/-- 1-indexed write into a heap segment. -/
def hset (a : List Nat) (k : Nat) (x : Nat) : List Nat := a.set (k - 1) x

/-- The larger child of heap slot j (step to j+1 when j < n and the
right sibling's value is larger). -/
def hchild (v : List Int) (n j : Nat) (a : List Nat) : Nat :=
  if j < n && decide (v.getD (hget a j) 0 < v.getD (hget a (j + 1)) 0) then j + 1 else j

/-- The aheapsort sift loop: walk the larger-child path down from slot i
while v[tmp] is less, shifting children up, then drop tmp into the hole. -/
def hsift (v : List Int) (n : Nat) (tmp : Nat) : Nat → Nat → Nat → List Nat → List Nat
  | 0, i, _, a => hset a i tmp
  | fuel+1, i, j, a =>
    if j ≤ n then
      if v.getD tmp 0 < v.getD (hget a (hchild v n j a)) 0 then
        hsift v n tmp fuel (hchild v n j a) (hchild v n j a + hchild v n j a)
          (hset a i (hget a (hchild v n j a)))
      else hset a i tmp
    else hset a i tmp

/-- aheapsort phase 1: heapify, sifting from slot n/2 down to 1. -/
def hphase1 (v : List Int) (n sfuel : Nat) : Nat → Nat → List Nat → List Nat
  | 0, _, a => a
  | fuel+1, l, a =>
    if l = 0 then a
    else hphase1 v n sfuel fuel (l - 1) (hsift v n (hget a l) sfuel l (2 * l) a)

/-- aheapsort phase 2: repeatedly move the root to the shrinking tail and
re-sift. -/
def hphase2 (v : List Int) (sfuel : Nat) : Nat → Nat → List Nat → List Nat
  | 0, _, a => a
  | fuel+1, m, a =>
    if m ≤ 1 then a
    else
      let tmp := hget a m
      let a1 := hset a m (hget a 1)
      let a2 := hsift v (m - 1) tmp sfuel 1 2 a1
      hphase2 v sfuel fuel (m - 1) a2

/-- aheapsort of an index segment. -/
def hsort (v : List Int) (seg : List Nat) : List Nat :=
  hphase2 v (seg.length + 2) (seg.length + 2) seg.length
    (hphase1 v seg.length (seg.length + 2) (seg.length + 2) (seg.length / 2) seg)

/-- Heapsort of the tosort slots pl..pr (inclusive), leaving the rest in
place (the depth-budget fallback of introsort). -/
def heapsortSeg (v : List Int) (pl pr : Nat) (ts : List Nat) : List Nat :=
  if pl ≤ pr then
    ts.take pl ++ hsort v ((ts.drop pl).take (pr + 1 - pl)) ++ ts.drop (pr + 1)
  else ts

/-- The outer loop of aquicksort: on each segment, fall back to heapsort
when the depth budget is exhausted, otherwise run the partition while
loop and finish the remaining small segment by insertion sort; then pop
the next segment off the explicit stack. -/
def aqsOuter (v : List Int) (sfuel : Nat) :
    Nat → Nat → Nat → Int → List (Nat × Nat × Int) → List Nat → List Nat
  | 0, _, _, _, _, ts => ts
  | fuel+1, pl, pr, cdepth, stack, ts =>
    if cdepth < 0 then
      let ts2 := heapsortSeg v pl pr ts
      match stack with
      | [] => ts2
      | (pl2, pr2, d2) :: rest => aqsOuter v sfuel fuel pl2 pr2 d2 rest ts2
    else
      match qsWhile v sfuel sfuel pl pr cdepth stack ts with
      | (pl2, pr2, _, stack2, ts2) =>
        let ts3 := insortSeg v pl2 pr2 ts2
        match stack2 with
        | [] => ts3
        | (pl3, pr3, d3) :: rest => aqsOuter v sfuel fuel pl3 pr3 d3 rest ts3

/-- npy_get_msb: index of the most significant set bit (fuel-driven
floor log2). -/
def msbFuel : Nat → Nat → Nat
  | 0, _ => 0
  | fuel+1, n => if n < 2 then 0 else 1 + msbFuel fuel (n / 2)

/-- npy_get_msb of n. -/
def npy_get_msb (n : Nat) : Nat := msbFuel n n

/-- numpy values.argsort(kind=quicksort): the permutation of 0..n-1
produced by introsort on the value list. -/
def aquicksortIdx (v : List Int) : List Nat :=
  let n := v.length
  if n = 0 then []
  else aqsOuter v (n + 2) (n + 2) 0 (n - 1) ((2 * npy_get_msb n : Nat) : Int) [] (List.range n)

/-- pandas nargsort, ascending: plain argsort (no missing prices in the
model, so the NaN mask is empty). -/
def nargsortAsc (vals : List Int) : List Nat := aquicksortIdx vals

/-- pandas nargsort, descending: reverse the values and the index list,
argsort ascending, then reverse the resulting indexer. -/
def nargsortDesc (vals : List Int) : List Nat :=
  let idxRev := (List.range vals.length).reverse
  ((aquicksortIdx vals.reverse).map (fun k => idxRev.getD k 0)).reverse

/-- sort_values("price_vnd", ascending=True) on a row list. -/
def sort_values_asc (l : List Row) : List Row :=
  (nargsortAsc (l.map (·.price_vnd))).map (fun i => l.getD i rowDefault)

/-- sort_values("price_vnd", ascending=False) on a row list. -/
def sort_values_desc (l : List Row) : List Row :=
  (nargsortDesc (l.map (·.price_vnd))).map (fun i => l.getD i rowDefault)

/-- bids = snap_df[snap_df[side] == "bid"].sort_values("price_vnd", ascending=False). -/
def bidsOf (snap : List Row) : List Row :=
  sort_values_desc (snap.filter (fun r => r.side == "bid"))

/-- asks = snap_df[snap_df[side] == "ask"].sort_values("price_vnd", ascending=True). -/
def asksOf (snap : List Row) : List Row :=
  sort_values_asc (snap.filter (fun r => r.side == "ask"))

/-- The snapshot split into its bid and ask partitions (lines 452-453). -/
def splitSnap (snap : List Row) : List Row × List Row := (bidsOf snap, asksOf snap)

/-! ## DepthCurveBuilder (lines 466-479) -/

/-- Running sum with an accumulator. -/
def cumsumFrom (acc : Int) : List Int → List Int
  | [] => []
  | x :: t => (acc + x) :: cumsumFrom (acc + x) t

/-- pandas Series.cumsum. -/
def cumsum (l : List Int) : List Int := cumsumFrom 0 l

/-- The depth curve of one (already sorted) side: one
(price, cumulative quantity) pair per input row. -/
def buildDepth (side : List Row) : List (Int × Int) :=
  (side.map (·.price_vnd)).zip (cumsum (side.map (·.quantity)))

/-! ## Spec-side reference sorts (refinement targets)

These two definitions follow the words of the specification, not the
code: a stable sort of the rows by price, descending for bids and
ascending for asks, with equal-price rows keeping their original
relative order.  They are compared against the sort the code performs. -/

/-- Stable descending insertion of a row: it passes every row whose
price is not strictly smaller, so equal prices keep input order. -/
def insRowDesc (r : Row) : List Row → List Row
  | [] => [r]
  | s :: t => if s.price_vnd < r.price_vnd then r :: s :: t else s :: insRowDesc r t

/-- Spec reference: stable sort by price descending. -/
def specStableSortDesc (l : List Row) : List Row :=
  l.foldl (fun acc r => insRowDesc r acc) []

/-- Stable ascending insertion of a row. -/
def insRowAsc (r : Row) : List Row → List Row
  | [] => [r]
  | s :: t => if r.price_vnd < s.price_vnd then r :: s :: t else s :: insRowAsc r t

/-- Spec reference: stable sort by price ascending. -/
def specStableSortAsc (l : List Row) : List Row :=
  l.foldl (fun acc r => insRowAsc r acc) []

/-- Stable descending insertion at index level (mirrors insRowDesc). -/
def insIdxDesc (v : List Int) (i : Nat) : List Nat → List Nat
  | [] => [i]
  | j :: t => if v.getD j 0 < v.getD i 0 then i :: j :: t else j :: insIdxDesc v i t

/-- Index-level stable descending argsort over 0..n-1. -/
def specIdxDesc (v : List Int) : List Nat :=
  (List.range v.length).foldl (fun acc i => insIdxDesc v i acc) []

/-- Index-level stable ascending argsort over 0..n-1. -/
def specIdxAsc (v : List Int) : List Nat := insArgsort v (List.range v.length)

/-! ## Permutation toolkit -/

/-- Writing back the value already stored at an in-bounds position is the
identity. -/
theorem set_getD_self {α : Type} (l : List α) (i : Nat) (d : α) (h : i < l.length) :
    l.set i (l.getD i d) = l := by
  induction l generalizing i with
  | nil => simp at h
  | cons a t ih =>
    cases i with
    | zero => simp [List.getD]
    | succ k =>
      simp only [List.set, List.getD_cons_succ]
      rw [ih k (by simpa using h)]

/-- Moving a value between the head and an in-bounds position is a
permutation. -/
theorem cons_set_swap_perm {α : Type} (l : List α) (k : Nat) (x y : α) (h : k < l.length) :
    (x :: l.set k y).Perm (y :: l.set k x) := by
  induction l generalizing k with
  | nil => simp at h
  | cons a t ih =>
    cases k with
    | zero => simpa using List.Perm.swap y x t
    | succ m =>
      have hm : m < t.length := by simpa using h
      have h1 : (x :: a :: t.set m y).Perm (a :: x :: t.set m y) := List.Perm.swap a x _
      have h2 : (a :: x :: t.set m y).Perm (a :: y :: t.set m x) := (ih m hm).cons a
      have h3 : (a :: y :: t.set m x).Perm (y :: a :: t.set m x) := List.Perm.swap y a _
      exact (h1.trans h2).trans h3

/-- Exchanging the values written at two distinct in-bounds positions is
a permutation. -/
theorem set_exchange_perm {α : Type} (l : List α) (i j : Nat) (x y : α)
    (hij : i < j) (hj : j < l.length) :
    ((l.set i x).set j y).Perm ((l.set i y).set j x) := by
  induction l generalizing i j with
  | nil => simp at hj
  | cons a t ih =>
    cases i with
    | zero =>
      cases j with
      | zero => omega
      | succ m =>
        have hm : m < t.length := by simpa using hj
        simpa using cons_set_swap_perm t m x y hm
    | succ i' =>
      cases j with
      | zero => omega
      | succ m =>
        have hm : m < t.length := by simpa using hj
        simpa using (ih i' m (by omega) hm).cons a

/-- The value-swap of two in-bounds positions (reading both values from
the original list) is a permutation. -/
theorem swap_vals_perm {α : Type} (l : List α) (i j : Nat) (d : α)
    (hi : i < l.length) (hj : j < l.length) :
    ((l.set i (l.getD j d)).set j (l.getD i d)).Perm l := by
  rcases Nat.lt_trichotomy i j with hlt | heq | hgt
  · refine (set_exchange_perm l i j _ _ hlt hj).trans ?_
    rw [set_getD_self l i d hi, set_getD_self l j d hj]
  · subst heq
    rw [List.set_set, set_getD_self l i d hi]
  · rw [List.set_comm _ _ _ (Nat.ne_of_gt hgt)]
    refine (set_exchange_perm l j i _ _ hgt hi).trans ?_
    rw [set_getD_self l j d hj, set_getD_self l i d hi]

/-- lswap is always a permutation. -/
theorem lswap_perm (l : List Nat) (i j : Nat) : (lswap l i j).Perm l := by
  unfold lswap
  split
  · rename_i h
    simp only [Bool.and_eq_true, decide_eq_true_eq] at h
    exact swap_vals_perm l i j 0 h.1 h.2
  · exact List.Perm.refl l

/-- getD at a position other than the one written is unchanged. -/
theorem getD_set_ne {α : Type} (l : List α) (i j : Nat) (x d : α) (h : i ≠ j) :
    (l.set i x).getD j d = l.getD j d := by
  induction l generalizing i j with
  | nil => simp [List.set]
  | cons a t ih =>
    cases i with
    | zero => cases j with
      | zero => omega
      | succ m => simp [List.getD]
    | succ i' => cases j with
      | zero => simp [List.getD]
      | succ m => simpa [List.getD] using ih i' m (by omega)

/-- Overwriting position j with tmp after shifting position j's value
into position i permutes like writing tmp at i directly. -/
theorem shift_then_fill_perm {α : Type} (a : List α) (i j : Nat) (tmp d : α)
    (hij : i < j) (hj : j < a.length) :
    ((a.set i (a.getD j d)).set j tmp).Perm (a.set i tmp) := by
  refine (set_exchange_perm a i j _ _ hij hj).trans ?_
  have : (a.set i tmp).getD j d = a.getD j d := getD_set_ne a i j tmp d (by omega)
  rw [← this, set_getD_self (a.set i tmp) j d (by simpa using hj)]

/-- A fold of a cons-like insertion over a list permutes to appending
the folded elements. -/
theorem foldl_ins_perm {α : Type} (ins : α → List α → List α)
    (h : ∀ x l, (ins x l).Perm (x :: l)) :
    ∀ (seg acc : List α), (seg.foldl (fun a x => ins x a) acc).Perm (seg ++ acc) := by
  intro seg
  induction seg with
  | nil => intro acc; simp
  | cons i rest ih =>
    intro acc
    simp only [List.foldl_cons, List.cons_append]
    refine (ih (ins i acc)).trans ?_
    refine (List.Perm.append_left rest (h i acc)).trans ?_
    exact List.perm_middle

/-- Reconstructing a list from a prefix, a permuted middle segment and
the tail suffix is a permutation. -/
theorem seg_write_back_perm {α : Type} (ts : List α) (pl pr : Nat) (mid : List α)
    (hple : pl ≤ pr) (hmid : mid.Perm ((ts.drop pl).take (pr + 1 - pl))) :
    (ts.take pl ++ mid ++ ts.drop (pr + 1)).Perm ts := by
  have hdecomp : ts.take pl ++ ((ts.drop pl).take (pr + 1 - pl) ++ ts.drop (pr + 1)) = ts := by
    have h1 : ts.drop (pr + 1) = (ts.drop pl).drop (pr + 1 - pl) := by
      rw [List.drop_drop]
      congr 1
      omega
    rw [h1, List.take_append_drop, List.take_append_drop]
  have hstep : (ts.take pl ++ mid ++ ts.drop (pr + 1)).Perm
      (ts.take pl ++ ((ts.drop pl).take (pr + 1 - pl) ++ ts.drop (pr + 1))) := by
    rw [List.append_assoc]
    exact List.Perm.append_left _ (hmid.append_right _)
  refine hstep.trans ?_
  rw [hdecomp]

/-! ## The introsort permutes its index list (content preservation) -/

/-- Stable insertion conses the new index somewhere: a permutation. -/
theorem insIdx_perm (v : List Int) (i : Nat) (l : List Nat) :
    (insIdx v i l).Perm (i :: l) := by
  induction l with
  | nil => exact .refl _
  | cons j t ih =>
    simp only [insIdx]
    split
    · exact .refl _
    · exact (ih.cons j).trans (List.Perm.swap i j t)

/-- The insertion argsort of a segment is a permutation of it. -/
theorem insArgsort_perm (v : List Int) (seg : List Nat) :
    (insArgsort v seg).Perm seg := by
  have h := foldl_ins_perm (insIdx v) (insIdx_perm v) seg []
  simpa [insArgsort] using h

/-- insortSeg permutes the whole index list. -/
theorem insortSeg_perm (v : List Int) (pl pr : Nat) (ts : List Nat) :
    (insortSeg v pl pr ts).Perm ts := by
  unfold insortSeg
  split
  · exact seg_write_back_perm ts pl pr _ (by assumption) (insArgsort_perm v _)
  · exact .refl ts

/-- The heap child step never moves below j and stays within the heap. -/
theorem hchild_bounds (v : List Int) (n j : Nat) (a : List Nat) (hj : j ≤ n) :
    j ≤ hchild v n j a ∧ hchild v n j a ≤ n := by
  unfold hchild
  split
  · rename_i h
    simp only [Bool.and_eq_true, decide_eq_true_eq] at h
    omega
  · omega

/-- The sift loop permutes like directly writing tmp into the hole. -/
theorem hsift_perm (v : List Int) (n tmp : Nat) :
    ∀ (fuel i j : Nat) (a : List Nat), 1 ≤ i → i < j → i ≤ n → n ≤ a.length →
    (hsift v n tmp fuel i j a).Perm (a.set (i - 1) tmp) := by
  intro fuel
  induction fuel with
  | zero => intro i j a _ _ _ _; exact .refl _
  | succ fuel ih =>
    intro i j a h1 h2 h3 h4
    simp only [hsift]
    split
    · rename_i hjn
      split
      · rename_i hlt
        have hcb := hchild_bounds v n j a hjn
        have hstep := ih (hchild v n j a) (hchild v n j a + hchild v n j a)
          (hset a i (hget a (hchild v n j a)))
          (by omega) (by omega) (by omega) (by simpa [hset] using h4)
        refine hstep.trans ?_
        have : (hset a i (hget a (hchild v n j a))).set (hchild v n j a - 1) tmp =
            (a.set (i - 1) (a.getD (hchild v n j a - 1) 0)).set (hchild v n j a - 1) tmp := rfl
        rw [this]
        exact shift_then_fill_perm a (i - 1) (hchild v n j a - 1) tmp 0 (by omega) (by omega)
      · exact .refl _
    · exact .refl _

/-- Heapify phase permutes the segment. -/
theorem hphase1_perm (v : List Int) (n sfuel : Nat) :
    ∀ (fuel l : Nat) (a : List Nat), l ≤ n → n ≤ a.length →
    (hphase1 v n sfuel fuel l a).Perm a := by
  intro fuel
  induction fuel with
  | zero => intro l a _ _; exact .refl _
  | succ fuel ih =>
    intro l a hl hn
    simp only [hphase1]
    split
    · exact .refl _
    · rename_i hl0
      have hs : (hsift v n (hget a l) sfuel l (2 * l) a).Perm (a.set (l - 1) (a.getD (l - 1) 0)) :=
        hsift_perm v n _ sfuel l (2 * l) a (by omega) (by omega) hl hn
      have hs2 : (hsift v n (hget a l) sfuel l (2 * l) a).Perm a := by
        rw [set_getD_self a (l - 1) 0 (by omega)] at hs
        exact hs
      exact (ih (l - 1) _ (by omega) (by rw [hs2.length_eq]; exact hn)).trans hs2

/-- Extraction phase permutes the segment. -/
theorem hphase2_perm (v : List Int) (sfuel : Nat) :
    ∀ (fuel m : Nat) (a : List Nat), m ≤ a.length →
    (hphase2 v sfuel fuel m a).Perm a := by
  intro fuel
  induction fuel with
  | zero => intro m a _; exact .refl _
  | succ fuel ih =>
    intro m a hm
    simp only [hphase2]
    split
    · exact .refl _
    · rename_i hm1
      have hs : (hsift v (m - 1) (hget a m) sfuel 1 2 (hset a m (hget a 1))).Perm
          ((hset a m (hget a 1)).set 0 (hget a m)) :=
        hsift_perm v (m - 1) _ sfuel 1 2 _ (by omega) (by omega) (by omega)
          (by simp only [hset, List.length_set]; omega)
      have hswap : ((hset a m (hget a 1)).set 0 (hget a m)).Perm a := by
        have := swap_vals_perm a (m - 1) 0 0 (by omega) (by omega)
        simpa [hset, hget] using this
      have hs2 := hs.trans hswap
      exact (ih (m - 1) _ (by rw [hs2.length_eq]; omega)).trans hs2

/-- aheapsort permutes. -/
theorem hsort_perm (v : List Int) (seg : List Nat) : (hsort v seg).Perm seg := by
  have h1 : (hphase1 v seg.length (seg.length + 2) (seg.length + 2) (seg.length / 2) seg).Perm seg :=
    hphase1_perm v seg.length (seg.length + 2) (seg.length + 2) (seg.length / 2) seg
      (by omega) (le_refl _)
  have h2 := hphase2_perm v (seg.length + 2) (seg.length + 2) seg.length _
    (by rw [h1.length_eq])
  exact h2.trans h1

/-- heapsortSeg permutes the whole index list. -/
theorem heapsortSeg_perm (v : List Int) (pl pr : Nat) (ts : List Nat) :
    (heapsortSeg v pl pr ts).Perm ts := by
  unfold heapsortSeg
  split
  · exact seg_write_back_perm ts pl pr _ (by assumption) (hsort_perm v _)
  · exact .refl ts

/-- The partition exchange loop permutes (it only swaps). -/
theorem partLoop_perm (v : List Int) (vp : Int) (sfuel : Nat) :
    ∀ (fuel pi pj : Nat) (ts : List Nat), ((partLoop v vp sfuel fuel pi pj ts).2).Perm ts := by
  intro fuel
  induction fuel with
  | zero => intro pi pj ts; exact .refl _
  | succ fuel ih =>
    intro pi pj ts
    simp only [partLoop]
    split
    · exact .refl _
    · exact (ih _ _ _).trans (lswap_perm _ _ _)

/-- Each conditional median-of-3 swap permutes. -/
theorem qsT1_perm (v : List Int) (pl pr : Nat) (ts : List Nat) : (qsT1 v pl pr ts).Perm ts := by
  unfold qsT1; split
  · exact lswap_perm _ _ _
  · exact .refl _

/-- Second median-of-3 swap permutes. -/
theorem qsT2_perm (v : List Int) (pl pr : Nat) (ts : List Nat) : (qsT2 v pl pr ts).Perm ts := by
  unfold qsT2; split
  · exact (lswap_perm _ _ _).trans (qsT1_perm v pl pr ts)
  · exact qsT1_perm v pl pr ts

/-- Third median-of-3 swap permutes. -/
theorem qsT3_perm (v : List Int) (pl pr : Nat) (ts : List Nat) : (qsT3 v pl pr ts).Perm ts := by
  unfold qsT3; split
  · exact (lswap_perm _ _ _).trans (qsT2_perm v pl pr ts)
  · exact qsT2_perm v pl pr ts

/-- The post-partition state permutes to the incoming index list. -/
theorem qsT6_perm (v : List Int) (sfuel pl pr : Nat) (ts : List Nat) :
    (qsT6 v sfuel pl pr ts).Perm ts := by
  unfold qsT6 qsPart qsT4
  exact (lswap_perm _ _ _).trans ((partLoop_perm v _ sfuel sfuel _ _ _).trans
    ((lswap_perm _ _ _).trans (qsT3_perm v pl pr ts)))

/-- The quicksort while loop permutes the index list. -/
theorem qsWhile_perm (v : List Int) (sfuel : Nat) :
    ∀ (fuel pl pr : Nat) (cdepth : Int) (stack : List (Nat × Nat × Int)) (ts : List Nat),
    ((qsWhile v sfuel fuel pl pr cdepth stack ts).2.2.2.2).Perm ts := by
  intro fuel
  induction fuel with
  | zero => intro pl pr cdepth stack ts; exact .refl _
  | succ fuel ih =>
    intro pl pr cdepth stack ts
    simp only [qsWhile]
    split
    · split
      · exact (ih _ _ _ _ _).trans (qsT6_perm v sfuel pl pr ts)
      · exact (ih _ _ _ _ _).trans (qsT6_perm v sfuel pl pr ts)
    · exact .refl _

/-- The whole introsort outer loop permutes the index list. -/
theorem aqsOuter_perm (v : List Int) (sfuel : Nat) :
    ∀ (fuel pl pr : Nat) (cdepth : Int) (stack : List (Nat × Nat × Int)) (ts : List Nat),
    (aqsOuter v sfuel fuel pl pr cdepth stack ts).Perm ts := by
  intro fuel
  induction fuel with
  | zero => intro pl pr cdepth stack ts; exact .refl _
  | succ fuel ih =>
    intro pl pr cdepth stack ts
    simp only [aqsOuter]
    split
    · cases stack with
      | nil => exact heapsortSeg_perm v pl pr ts
      | cons h3 rest =>
        rcases h3 with ⟨pl2, pr2, d2⟩
        exact (ih _ _ _ _ _).trans (heapsortSeg_perm v pl pr ts)
    · rcases hq : qsWhile v sfuel sfuel pl pr cdepth stack ts with ⟨pl2, pr2, d2, stack2, ts2⟩
      have hts2 : ts2.Perm ts := by
        have h := qsWhile_perm v sfuel sfuel pl pr cdepth stack ts
        rw [hq] at h
        exact h
      dsimp only
      cases stack2 with
      | nil => exact (insortSeg_perm v pl2 pr2 ts2).trans hts2
      | cons h3 rest =>
        rcases h3 with ⟨pl3, pr3, d3⟩
        exact (ih _ _ _ _ _).trans ((insortSeg_perm v pl2 pr2 ts2).trans hts2)

/-- numpy argsort returns a permutation of the positions 0..n-1. -/
theorem aquicksortIdx_perm (v : List Int) :
    (aquicksortIdx v).Perm (List.range v.length) := by
  by_cases h : v.length = 0
  · have hv : v = [] := List.length_eq_zero.mp h
    subst hv
    exact List.Perm.refl []
  · simp only [aquicksortIdx]
    rw [if_neg h]
    exact aqsOuter_perm v _ _ _ _ _ _ _

/-! ## Row-level permutation facts about the sorts -/

/-- Reading every position of a list through getD reproduces the list. -/
theorem map_getD_range {α : Type} (l : List α) (d : α) :
    (List.range l.length).map (fun i => l.getD i d) = l := by
  apply List.ext_getElem (by simp)
  intro i h1 h2
  simp only [List.getElem_map, List.getElem_range]
  exact List.getD_eq_getElem l d h2

/-- Reading a permutation of all positions through getD permutes the
list. -/
theorem perm_map_getD {α : Type} (l : List α) (d : α) (idxs : List Nat)
    (h : idxs.Perm (List.range l.length)) :
    (idxs.map (fun i => l.getD i d)).Perm l := by
  have hm := h.map (fun i => l.getD i d)
  rwa [map_getD_range l d] at hm

/-- The descending indexer is a permutation of all positions. -/
theorem nargsortDesc_perm (vals : List Int) :
    (nargsortDesc vals).Perm (List.range vals.length) := by
  unfold nargsortDesc
  have h1 : (aquicksortIdx vals.reverse).Perm (List.range vals.length) := by
    simpa using aquicksortIdx_perm vals.reverse
  have h2 : ((aquicksortIdx vals.reverse).map
      (fun k => ((List.range vals.length).reverse).getD k 0)).Perm
      ((List.range vals.length).reverse) :=
    perm_map_getD ((List.range vals.length).reverse) 0 _ (by simpa using h1)
  exact ((List.reverse_perm _).trans h2).trans (List.reverse_perm _)

/-- Ascending sort_values permutes the rows. -/
theorem sort_values_asc_perm (l : List Row) : (sort_values_asc l).Perm l := by
  unfold sort_values_asc nargsortAsc
  exact perm_map_getD l rowDefault _ (by simpa using aquicksortIdx_perm (l.map (·.price_vnd)))

/-- Descending sort_values permutes the rows. -/
theorem sort_values_desc_perm (l : List Row) : (sort_values_desc l).Perm l := by
  unfold sort_values_desc
  exact perm_map_getD l rowDefault _ (by simpa using nargsortDesc_perm (l.map (·.price_vnd)))

/-- The bid partition permutes the side-filtered rows. -/
theorem bidsOf_perm (snap : List Row) :
    (bidsOf snap).Perm (snap.filter (fun r => r.side == "bid")) :=
  sort_values_desc_perm _

/-- The ask partition permutes the side-filtered rows. -/
theorem asksOf_perm (snap : List Row) :
    (asksOf snap).Perm (snap.filter (fun r => r.side == "ask")) :=
  sort_values_asc_perm _

/-- Filtering on side-in-bid-or-ask splits into the two side filters. -/
theorem filter_side_split (snap : List Row) :
    (snap.filter (fun r => r.side == "bid" || r.side == "ask")).Perm
    (snap.filter (fun r => r.side == "bid") ++ snap.filter (fun r => r.side == "ask")) := by
  induction snap with
  | nil => simp
  | cons a t ih =>
    by_cases hb : a.side = "bid"
    · simp only [List.filter_cons, hb]
      simp only [show (("bid" : String) == "bid") = true from rfl,
        show (("bid" : String) == "ask") = false from rfl, Bool.true_or, if_true, if_false,
        Bool.false_eq_true, List.cons_append]
      exact ih.cons a
    · by_cases ha : a.side = "ask"
      · simp only [List.filter_cons, ha]
        simp only [show (("ask" : String) == "ask") = true from rfl,
          show (("ask" : String) == "bid") = false from rfl, Bool.or_true, if_true, if_false,
          Bool.false_eq_true]
        exact (ih.cons a).trans List.perm_middle.symm
      · have hb' : (a.side == "bid") = false := by simpa using hb
        have ha' : (a.side == "ask") = false := by simpa using ha
        simp only [List.filter_cons, hb', ha', Bool.or_false, if_false, Bool.false_eq_true]
        exact ih

/-- Every row of the bid partition is a bid row of the snapshot. -/
theorem mem_bidsOf {snap : List Row} {r : Row} (h : r ∈ bidsOf snap) :
    r.side = "bid" ∧ r ∈ snap := by
  have hm := (bidsOf_perm snap).mem_iff.mp h
  exact ⟨by simpa using List.of_mem_filter hm, List.mem_of_mem_filter hm⟩

/-- Every row of the ask partition is an ask row of the snapshot. -/
theorem mem_asksOf {snap : List Row} {r : Row} (h : r ∈ asksOf snap) :
    r.side = "ask" ∧ r ∈ snap := by
  have hm := (asksOf_perm snap).mem_iff.mp h
  exact ⟨by simpa using List.of_mem_filter hm, List.mem_of_mem_filter hm⟩

/-- Claim C2: for every snapshot, the bid and ask partitions produced by
split are disjoint; together (as a multiset) they are exactly the
snapshot rows whose side is the literal string "bid" or "ask"
(case-sensitive); and a row with any other side value lands in neither
partition. -/
theorem C2_split_partition (snap : List Row) :
    (∀ r, r ∈ (splitSnap snap).1 → r ∉ (splitSnap snap).2) ∧
    ((splitSnap snap).1 ++ (splitSnap snap).2).Perm
      (snap.filter (fun r => r.side == "bid" || r.side == "ask")) ∧
    (∀ r, r.side ≠ "bid" → r.side ≠ "ask" →
      r ∉ (splitSnap snap).1 ∧ r ∉ (splitSnap snap).2) := by
  refine ⟨?_, ?_, ?_⟩
  · intro r hb hask
    have h1 := (mem_bidsOf hb).1
    have h2 := (mem_asksOf hask).1
    rw [h1] at h2
    exact absurd h2 (by decide)
  · exact ((bidsOf_perm snap).append (asksOf_perm snap)).trans (filter_side_split snap).symm
  · intro r hnb hna
    constructor
    · intro h
      exact hnb (mem_bidsOf h).1
    · intro h
      exact hna (mem_asksOf h).1

/-- The widget.csv scenario rows (spec section 8). -/
def widgetSnap : List Row :=
  [{ key := some 1, side := "bid", price_vnd := 100, quantity := 5 },
   { key := some 1, side := "bid", price_vnd := 100, quantity := 3 },
   { key := some 1, side := "ask", price_vnd := 110, quantity := 2 }]

/-- Witness for C2 at the widget.csv scenario: the first bid row is in
the bid partition and therefore not in the ask partition. -/
theorem C2_split_partition_witness :
    ((splitSnap widgetSnap).1 ++ (splitSnap widgetSnap).2).Perm
      (widgetSnap.filter (fun r => r.side == "bid" || r.side == "ask")) ∧
    ({ key := some 1, side := "bid", price_vnd := 100, quantity := 5 } : Row) ∉
      (splitSnap widgetSnap).2 :=
  ⟨(C2_split_partition widgetSnap).2.1,
   (C2_split_partition widgetSnap).1 _ (by decide)⟩

/-! ## Depth curve facts (C3) -/

/-- cumsum preserves length. -/
theorem cumsumFrom_length (l : List Int) : ∀ acc, (cumsumFrom acc l).length = l.length := by
  induction l with
  | nil => intro acc; rfl
  | cons x t ih => intro acc; simp [cumsumFrom, ih]

/-- The i-th running sum is the sum of the first i+1 elements (plus the
starting accumulator). -/
theorem cumsumFrom_getD (l : List Int) : ∀ (acc : Int) (i : Nat), i < l.length →
    (cumsumFrom acc l).getD i 0 = acc + (l.take (i + 1)).sum := by
  induction l with
  | nil => intro acc i h; simp at h
  | cons x t ih =>
    intro acc i h
    cases i with
    | zero => simp [cumsumFrom]
    | succ m =>
      simp only [cumsumFrom, List.getD_cons_succ]
      rw [ih (acc + x) m (by simpa using h)]
      simp only [List.take_succ_cons, List.sum_cons]
      ring

/-- With non-negative addends the running sums never decrease. -/
theorem cumsumFrom_chain (l : List Int) : ∀ acc, (∀ x ∈ l, 0 ≤ x) →
    List.Chain' (· ≤ ·) (cumsumFrom acc l) := by
  induction l with
  | nil => intro acc _; simp [cumsumFrom]
  | cons x t ih =>
    intro acc h
    simp only [cumsumFrom]
    rw [List.chain'_cons']
    refine ⟨?_, ih (acc + x) (fun y hy => h y (List.mem_cons_of_mem x hy))⟩
    intro y hy
    cases t with
    | nil => simp [cumsumFrom] at hy
    | cons z t2 =>
      simp only [cumsumFrom, List.head?_cons, Option.mem_def, Option.some.injEq] at hy
      have hz : 0 ≤ z := h z (by simp)
      omega

/-- Pairing prices with the running sums keeps the running sums
non-decreasing at the second components. -/
theorem chain'_zip_snd : ∀ (l1 l2 : List Int), List.Chain' (· ≤ ·) l2 →
    List.Chain' (fun p q : Int × Int => p.2 ≤ q.2) (l1.zip l2) := by
  intro l1
  induction l1 with
  | nil => intro l2 _; simp
  | cons a t1 ih =>
    intro l2 hc
    cases l2 with
    | nil => simp
    | cons b t2 =>
      simp only [List.zip_cons_cons]
      rw [List.chain'_cons']
      refine ⟨?_, ih t2 hc.tail⟩
      intro y hy
      cases t1 with
      | nil => simp at hy
      | cons c t1' =>
        cases t2 with
        | nil => simp at hy
        | cons d t2' =>
          simp only [List.zip_cons_cons, List.head?_cons, Option.mem_def,
            Option.some.injEq] at hy
          subst hy
          exact (List.chain'_cons.mp hc).1

/-- All the properties of one depth curve: one output pair per input row,
the i-th pair carries the i-th price and the running quantity sum through
row i inclusive, the running sums are non-decreasing when quantities are
non-negative, and the last running sum is the side's total quantity. -/
theorem buildDepth_props (side : List Row) (hq : ∀ r ∈ side, 0 ≤ r.quantity) :
    (buildDepth side).length = side.length ∧
    (∀ i, i < side.length →
      (buildDepth side).getD i (0, 0) =
        ((side.getD i rowDefault).price_vnd, ((side.map (·.quantity)).take (i + 1)).sum)) ∧
    List.Chain' (fun p q : Int × Int => p.2 ≤ q.2) (buildDepth side) ∧
    (side ≠ [] →
      ((buildDepth side).getD (side.length - 1) (0, 0)).2 = (side.map (·.quantity)).sum) := by
  have hlen : (buildDepth side).length = side.length := by
    simp [buildDepth, cumsumFrom_length, cumsum]
  have hgetD : ∀ i, i < side.length →
      (buildDepth side).getD i (0, 0) =
        ((side.getD i rowDefault).price_vnd, ((side.map (·.quantity)).take (i + 1)).sum) := by
    intro i h
    have hi : i < (buildDepth side).length := by rw [hlen]; exact h
    rw [List.getD_eq_getElem _ _ hi]
    have h1 : i < (side.map (·.price_vnd)).length := by simpa using h
    have h2 : i < (cumsum (side.map (·.quantity))).length := by
      simpa [cumsum, cumsumFrom_length] using h
    simp only [buildDepth, List.getElem_zip, Prod.mk.injEq]
    constructor
    · rw [List.getElem_map]
      rw [List.getD_eq_getElem side rowDefault h]
    · rw [← List.getD_eq_getElem _ 0 h2]
      have := cumsumFrom_getD (side.map (·.quantity)) 0 i (by simpa using h)
      simpa [cumsum] using this
  refine ⟨hlen, hgetD, ?_, ?_⟩
  · apply chain'_zip_snd
    apply cumsumFrom_chain
    intro x hx
    rcases List.mem_map.mp hx with ⟨r, hr, hrx⟩
    rw [← hrx]
    exact hq r hr
  · intro hne
    have hpos : 0 < side.length := List.length_pos.mpr hne
    rw [hgetD (side.length - 1) (by omega)]
    have heq : side.length - 1 + 1 = side.length := by omega
    rw [heq]
    have : (side.map (·.quantity)).take side.length = side.map (·.quantity) := by
      apply List.take_of_length_le
      simp
    rw [this]

/-- Claim C3: for each sorted side emitted by the split, when quantities
are non-negative the depth curve has one (price, cumulativeQty) pair per
input row, the cumulativeQty at position i is the running quantity sum
through row i inclusive, the sequence of cumulative quantities is
non-decreasing, and the final cumulative quantity equals the sum of all
quantities on that side. -/
theorem C3_depth_curve (snap : List Row) (hq : ∀ r ∈ snap, 0 ≤ r.quantity) :
    ((buildDepth (bidsOf snap)).length = (bidsOf snap).length ∧
     (∀ i, i < (bidsOf snap).length →
       (buildDepth (bidsOf snap)).getD i (0, 0) =
         (((bidsOf snap).getD i rowDefault).price_vnd,
          (((bidsOf snap).map (·.quantity)).take (i + 1)).sum)) ∧
     List.Chain' (fun p q : Int × Int => p.2 ≤ q.2) (buildDepth (bidsOf snap)) ∧
     (bidsOf snap ≠ [] →
       ((buildDepth (bidsOf snap)).getD ((bidsOf snap).length - 1) (0, 0)).2 =
         ((bidsOf snap).map (·.quantity)).sum)) ∧
    ((buildDepth (asksOf snap)).length = (asksOf snap).length ∧
     (∀ i, i < (asksOf snap).length →
       (buildDepth (asksOf snap)).getD i (0, 0) =
         (((asksOf snap).getD i rowDefault).price_vnd,
          (((asksOf snap).map (·.quantity)).take (i + 1)).sum)) ∧
     List.Chain' (fun p q : Int × Int => p.2 ≤ q.2) (buildDepth (asksOf snap)) ∧
     (asksOf snap ≠ [] →
       ((buildDepth (asksOf snap)).getD ((asksOf snap).length - 1) (0, 0)).2 =
         ((asksOf snap).map (·.quantity)).sum)) := by
  constructor
  · exact buildDepth_props (bidsOf snap) (fun r hr => hq r (mem_bidsOf hr).2)
  · exact buildDepth_props (asksOf snap) (fun r hr => hq r (mem_asksOf hr).2)

/-- Witness for C3 at the widget.csv scenario; the depth curves there are
bids to [(100,5),(100,8)] and asks to [(110,2)] as the spec scenario
states. -/
theorem C3_depth_curve_witness :
    (∀ r ∈ widgetSnap, 0 ≤ r.quantity) ∧
    List.Chain' (fun p q : Int × Int => p.2 ≤ q.2) (buildDepth (bidsOf widgetSnap)) ∧
    buildDepth (bidsOf widgetSnap) = [(100, 5), (100, 8)] ∧
    buildDepth (asksOf widgetSnap) = [(110, 2)] :=
  ⟨by decide, (C3_depth_curve widgetSnap (by decide)).1.2.2.1, by decide, by decide⟩

/-! ## Small inputs take the pure insertion-sort path (C1) -/

/-- When the segment is short the quicksort while loop does nothing. -/
theorem qsWhile_small (v : List Int) (sfuel fuel pl pr : Nat) (cdepth : Int)
    (stack : List (Nat × Nat × Int)) (ts : List Nat)
    (h : ¬ SMALL_QUICKSORT < pr - pl) :
    qsWhile v sfuel fuel pl pr cdepth stack ts = (pl, pr, cdepth, stack, ts) := by
  cases fuel with
  | zero => rfl
  | succ fuel => simp [qsWhile, h]

/-- For up to 16 values the whole argsort is one pass of the C insertion
sort over all the positions. -/
theorem aquicksortIdx_small (v : List Int) (h1 : 1 ≤ v.length) (h16 : v.length ≤ 16) :
    aquicksortIdx v = insArgsort v (List.range v.length) := by
  simp only [aquicksortIdx]
  rw [if_neg (by omega)]
  simp only [aqsOuter]
  rw [if_neg (by omega)]
  rw [qsWhile_small v (v.length + 2) (v.length + 2) 0 (v.length - 1) _ [] (List.range v.length)
    (by simp only [SMALL_QUICKSORT]; omega)]
  dsimp only
  unfold insortSeg
  rw [if_pos (by omega)]
  simp only [List.take_zero, List.drop_zero, List.nil_append]
  have hn : v.length - 1 + 1 = v.length := by omega
  rw [hn]
  rw [List.take_of_length_le (by simp), List.drop_eq_nil_of_le (by simp), List.append_nil]

/-- Ascending stability order: position a precedes position b when its
value is smaller, or the values tie and a is the earlier position. -/
def rAsc (v : List Int) (a b : Nat) : Prop :=
  v.getD a 0 < v.getD b 0 ∨ (v.getD a 0 = v.getD b 0 ∧ a < b)

/-- Descending stability order: position a precedes position b when its
value is larger, or the values tie and a is the earlier position. -/
def rDesc (v : List Int) (a b : Nat) : Prop :=
  v.getD b 0 < v.getD a 0 ∨ (v.getD b 0 = v.getD a 0 ∧ a < b)

/-- rAsc is antisymmetric (vacuously: the two directions contradict). -/
theorem rAsc_antisymm (v : List Int) : ∀ a b, rAsc v a b → rAsc v b a → a = b := by
  intro a b h1 h2
  rcases h1 with h | ⟨e, l⟩ <;> rcases h2 with h' | ⟨e', l'⟩ <;> omega

/-- rDesc is antisymmetric (vacuously: the two directions contradict). -/
theorem rDesc_antisymm (v : List Int) : ∀ a b, rDesc v a b → rDesc v b a → a = b := by
  intro a b h1 h2
  rcases h1 with h | ⟨e, l⟩ <;> rcases h2 with h' | ⟨e', l'⟩ <;> omega

/-- Inserting a position larger than everything present keeps the list
ordered by rAsc. -/
theorem insIdx_pairwise (v : List Int) :
    ∀ (l : List Nat) (i : Nat), l.Pairwise (rAsc v) → (∀ j ∈ l, j < i) →
    (insIdx v i l).Pairwise (rAsc v) := by
  intro l
  induction l with
  | nil => intro i _ _; simp [insIdx]
  | cons j t ih =>
    intro i hp hb
    simp only [insIdx]
    split
    · rename_i hlt
      refine List.Pairwise.cons ?_ hp
      intro x hx
      rcases List.mem_cons.mp hx with rfl | hxt
      · exact Or.inl hlt
      · rcases (List.pairwise_cons.mp hp).1 x hxt with h | ⟨heq, _⟩
        · exact Or.inl (lt_trans hlt h)
        · exact Or.inl (heq ▸ hlt)
    · rename_i hge
      refine List.Pairwise.cons ?_
        (ih i (List.pairwise_cons.mp hp).2 (fun k hk => hb k (List.mem_cons_of_mem j hk)))
      intro x hx
      have hx' : x ∈ i :: t := (insIdx_perm v i t).mem_iff.mp hx
      rcases List.mem_cons.mp hx' with rfl | hxt
      · rcases lt_or_eq_of_le (not_lt.mp hge) with h | h
        · exact Or.inl h
        · exact Or.inr ⟨h, hb j (List.mem_cons_self j t)⟩
      · exact (List.pairwise_cons.mp hp).1 x hxt

/-- Folding the ascending insertion over strictly increasing positions
yields an rAsc-ordered list. -/
theorem insArgsort_pairwise (v : List Int) :
    ∀ (seg acc : List Nat), acc.Pairwise (rAsc v) →
    (∀ a ∈ acc, ∀ s ∈ seg, a < s) → seg.Pairwise (· < ·) →
    (seg.foldl (fun a i => insIdx v i a) acc).Pairwise (rAsc v) := by
  intro seg
  induction seg with
  | nil => intro acc h _ _; simpa using h
  | cons i rest ih =>
    intro acc hacc hcross hseg
    simp only [List.foldl_cons]
    apply ih
    · exact insIdx_pairwise v acc i hacc (fun j hj => hcross j hj i (List.mem_cons_self _ _))
    · intro a ha s hs
      have ha' : a ∈ i :: acc := (insIdx_perm v i acc).mem_iff.mp ha
      rcases List.mem_cons.mp ha' with rfl | haa
      · exact (List.pairwise_cons.mp hseg).1 s hs
      · exact hcross a haa s (List.mem_cons_of_mem _ hs)
    · exact (List.pairwise_cons.mp hseg).2

/-- The ascending argsort of all positions is ordered by rAsc. -/
theorem specIdxAsc_pairwise (v : List Int) : (specIdxAsc v).Pairwise (rAsc v) :=
  insArgsort_pairwise v (List.range v.length) [] (by simp) (by simp)
    (List.pairwise_lt_range v.length)

/-- The descending insertion conses the new index somewhere. -/
theorem insIdxDesc_perm (v : List Int) (i : Nat) (l : List Nat) :
    (insIdxDesc v i l).Perm (i :: l) := by
  induction l with
  | nil => exact .refl _
  | cons j t ih =>
    simp only [insIdxDesc]
    split
    · exact .refl _
    · exact (ih.cons j).trans (List.Perm.swap i j t)

/-- Inserting a position larger than everything present keeps the list
ordered by rDesc. -/
theorem insIdxDesc_pairwise (v : List Int) :
    ∀ (l : List Nat) (i : Nat), l.Pairwise (rDesc v) → (∀ j ∈ l, j < i) →
    (insIdxDesc v i l).Pairwise (rDesc v) := by
  intro l
  induction l with
  | nil => intro i _ _; simp [insIdxDesc]
  | cons j t ih =>
    intro i hp hb
    simp only [insIdxDesc]
    split
    · rename_i hlt
      refine List.Pairwise.cons ?_ hp
      intro x hx
      rcases List.mem_cons.mp hx with rfl | hxt
      · exact Or.inl hlt
      · rcases (List.pairwise_cons.mp hp).1 x hxt with h | ⟨heq, _⟩
        · exact Or.inl (lt_trans h hlt)
        · exact Or.inl (heq ▸ hlt)
    · rename_i hge
      refine List.Pairwise.cons ?_
        (ih i (List.pairwise_cons.mp hp).2 (fun k hk => hb k (List.mem_cons_of_mem j hk)))
      intro x hx
      have hx' : x ∈ i :: t := (insIdxDesc_perm v i t).mem_iff.mp hx
      rcases List.mem_cons.mp hx' with rfl | hxt
      · rcases lt_or_eq_of_le (not_lt.mp hge) with h | h
        · exact Or.inl h
        · exact Or.inr ⟨h, hb j (List.mem_cons_self j t)⟩
      · exact (List.pairwise_cons.mp hp).1 x hxt

/-- Folding the descending insertion over strictly increasing positions
yields an rDesc-ordered list. -/
theorem insArgsortDesc_pairwise (v : List Int) :
    ∀ (seg acc : List Nat), acc.Pairwise (rDesc v) →
    (∀ a ∈ acc, ∀ s ∈ seg, a < s) → seg.Pairwise (· < ·) →
    (seg.foldl (fun a i => insIdxDesc v i a) acc).Pairwise (rDesc v) := by
  intro seg
  induction seg with
  | nil => intro acc h _ _; simpa using h
  | cons i rest ih =>
    intro acc hacc hcross hseg
    simp only [List.foldl_cons]
    apply ih
    · exact insIdxDesc_pairwise v acc i hacc (fun j hj => hcross j hj i (List.mem_cons_self _ _))
    · intro a ha s hs
      have ha' : a ∈ i :: acc := (insIdxDesc_perm v i acc).mem_iff.mp ha
      rcases List.mem_cons.mp ha' with rfl | haa
      · exact (List.pairwise_cons.mp hseg).1 s hs
      · exact hcross a haa s (List.mem_cons_of_mem _ hs)
    · exact (List.pairwise_cons.mp hseg).2

/-- The descending reference argsort is ordered by rDesc. -/
theorem specIdxDesc_pairwise (v : List Int) : (specIdxDesc v).Pairwise (rDesc v) :=
  insArgsortDesc_pairwise v (List.range v.length) [] (by simp) (by simp)
    (List.pairwise_lt_range v.length)

/-- The descending reference argsort is a permutation of all positions. -/
theorem specIdxDesc_perm (v : List Int) : (specIdxDesc v).Perm (List.range v.length) := by
  have h := foldl_ins_perm (insIdxDesc v) (insIdxDesc_perm v) (List.range v.length) []
  simpa [specIdxDesc] using h

/-- Reading the reversed position list at slot k gives n-1-k. -/
theorem idxRev_getD (n k : Nat) (hk : k < n) :
    ((List.range n).reverse).getD k 0 = n - 1 - k := by
  rw [List.getD_eq_getElem _ _ (by simpa using hk)]
  rw [List.getElem_reverse]
  simp [List.getElem_range]

/-- Reading a reversed value list at slot k reads the mirrored slot. -/
theorem getD_reverse_eq (v : List Int) (k : Nat) (hk : k < v.length) :
    v.reverse.getD k 0 = v.getD (v.length - 1 - k) 0 := by
  rw [List.getD_eq_getElem _ _ (by simpa using hk), List.getElem_reverse,
    List.getD_eq_getElem _ _ (by omega)]

/-- For at most 16 values the descending indexer is ordered by rDesc
(sorted descending and stable). -/
theorem nargsortDesc_pairwise (vals : List Int) (h1 : 1 ≤ vals.length)
    (h16 : vals.length ≤ 16) :
    (nargsortDesc vals).Pairwise (rDesc vals) := by
  unfold nargsortDesc
  have ha : aquicksortIdx vals.reverse =
      insArgsort vals.reverse (List.range vals.length) := by
    have := aquicksortIdx_small vals.reverse (by simpa using h1) (by simpa using h16)
    simpa using this
  rw [ha]
  rw [List.pairwise_reverse, List.pairwise_map]
  have hS : (insArgsort vals.reverse (List.range vals.length)).Pairwise (rAsc vals.reverse) := by
    have := specIdxAsc_pairwise vals.reverse
    simpa [specIdxAsc] using this
  have hSperm : (insArgsort vals.reverse (List.range vals.length)).Perm
      (List.range vals.length) := insArgsort_perm vals.reverse _
  refine List.Pairwise.imp_of_mem ?_ hS
  intro a b ha' hb' hR
  have han : a < vals.length := by
    have := hSperm.mem_iff.mp ha'
    simpa using this
  have hbn : b < vals.length := by
    have := hSperm.mem_iff.mp hb'
    simpa using this
  show rDesc vals (((List.range vals.length).reverse).getD b 0)
    (((List.range vals.length).reverse).getD a 0)
  rw [idxRev_getD _ b hbn, idxRev_getD _ a han]
  rcases hR with hlt | ⟨heq, hab⟩
  · left
    rw [getD_reverse_eq vals a han, getD_reverse_eq vals b hbn] at hlt
    exact hlt
  · right
    rw [getD_reverse_eq vals a han, getD_reverse_eq vals b hbn] at heq
    exact ⟨heq, by omega⟩

/-- For at most 16 values the code's descending indexer equals the
stable descending reference argsort. -/
theorem nargsortDesc_eq_spec (vals : List Int) (h16 : vals.length ≤ 16) :
    nargsortDesc vals = specIdxDesc vals := by
  by_cases h0 : vals.length = 0
  · have hv : vals = [] := List.length_eq_zero.mp h0
    subst hv
    rfl
  · haveI : IsAntisymm Nat (rDesc vals) := ⟨rDesc_antisymm vals⟩
    exact List.eq_of_perm_of_sorted
      ((nargsortDesc_perm vals).trans (specIdxDesc_perm vals).symm)
      (nargsortDesc_pairwise vals (by omega) h16)
      (specIdxDesc_pairwise vals)

/-- For at most 16 values the code's ascending indexer equals the stable
ascending reference argsort. -/
theorem nargsortAsc_eq_spec (vals : List Int) (h16 : vals.length ≤ 16) :
    nargsortAsc vals = specIdxAsc vals := by
  by_cases h0 : vals.length = 0
  · have hv : vals = [] := List.length_eq_zero.mp h0
    subst hv
    rfl
  · exact aquicksortIdx_small vals (by omega) h16

/-- Looking a position up in the price column equals taking the row's
price (the default row carries price 0, matching the column default). -/
theorem price_getD (l : List Row) (k : Nat) :
    (l.map (·.price_vnd)).getD k 0 = (l.getD k rowDefault).price_vnd := by
  by_cases h : k < l.length
  · rw [List.getD_eq_getElem _ _ (by simpa using h), List.getElem_map,
      List.getD_eq_getElem _ _ h]
  · rw [List.getD_eq_default _ _ (by simpa using h), List.getD_eq_default _ _ (by omega)]
    rfl

/-- The row-level stable ascending insertion mirrors the index-level
one through position lookup. -/
theorem insRowAsc_map (l : List Row) (m : Nat) :
    ∀ acc : List Nat,
    insRowAsc (l.getD m rowDefault) (acc.map (fun j => l.getD j rowDefault)) =
    (insIdx (l.map (·.price_vnd)) m acc).map (fun j => l.getD j rowDefault) := by
  intro acc
  induction acc with
  | nil => rfl
  | cons j t ih =>
    simp only [List.map_cons, insRowAsc, insIdx, price_getD]
    by_cases hc : (l.getD m rowDefault).price_vnd < (l.getD j rowDefault).price_vnd
    · rw [if_pos hc, if_pos hc]
      rfl
    · simp only [if_neg hc, List.map_cons, ih]

/-- Folded version of the ascending commutation. -/
theorem foldRowAsc_map (l : List Row) :
    ∀ (idxs acc : List Nat),
    ((idxs.foldl (fun a i => insIdx (l.map (·.price_vnd)) i a) acc).map
      (fun j => l.getD j rowDefault)) =
    (idxs.map (fun j => l.getD j rowDefault)).foldl (fun a r => insRowAsc r a)
      (acc.map (fun j => l.getD j rowDefault)) := by
  intro idxs
  induction idxs with
  | nil => intro acc; rfl
  | cons i rest ih =>
    intro acc
    simp only [List.foldl_cons, List.map_cons]
    rw [ih, ← insRowAsc_map]

/-- For a side of at most 16 rows the code's ascending sort equals the
spec's stable ascending sort. -/
theorem sort_values_asc_eq_spec (l : List Row) (h16 : l.length ≤ 16) :
    sort_values_asc l = specStableSortAsc l := by
  unfold sort_values_asc
  rw [nargsortAsc_eq_spec _ (by simpa using h16)]
  unfold specIdxAsc insArgsort
  rw [foldRowAsc_map l (List.range (l.map (·.price_vnd)).length) []]
  simp only [List.length_map, List.map_nil]
  rw [map_getD_range l rowDefault]
  rfl

/-- The row-level stable descending insertion mirrors the index-level
one through position lookup. -/
theorem insRowDesc_map (l : List Row) (m : Nat) :
    ∀ acc : List Nat,
    insRowDesc (l.getD m rowDefault) (acc.map (fun j => l.getD j rowDefault)) =
    (insIdxDesc (l.map (·.price_vnd)) m acc).map (fun j => l.getD j rowDefault) := by
  intro acc
  induction acc with
  | nil => rfl
  | cons j t ih =>
    simp only [List.map_cons, insRowDesc, insIdxDesc, price_getD]
    by_cases hc : (l.getD j rowDefault).price_vnd < (l.getD m rowDefault).price_vnd
    · rw [if_pos hc, if_pos hc]
      rfl
    · simp only [if_neg hc, List.map_cons, ih]

/-- Folded version of the descending commutation. -/
theorem foldRowDesc_map (l : List Row) :
    ∀ (idxs acc : List Nat),
    ((idxs.foldl (fun a i => insIdxDesc (l.map (·.price_vnd)) i a) acc).map
      (fun j => l.getD j rowDefault)) =
    (idxs.map (fun j => l.getD j rowDefault)).foldl (fun a r => insRowDesc r a)
      (acc.map (fun j => l.getD j rowDefault)) := by
  intro idxs
  induction idxs with
  | nil => intro acc; rfl
  | cons i rest ih =>
    intro acc
    simp only [List.foldl_cons, List.map_cons]
    rw [ih, ← insRowDesc_map]

/-- For a side of at most 16 rows the code's descending sort equals the
spec's stable descending sort. -/
theorem sort_values_desc_eq_spec (l : List Row) (h16 : l.length ≤ 16) :
    sort_values_desc l = specStableSortDesc l := by
  unfold sort_values_desc
  rw [nargsortDesc_eq_spec _ (by simpa using h16)]
  unfold specIdxDesc
  rw [foldRowDesc_map l (List.range (l.map (·.price_vnd)).length) []]
  simp only [List.length_map, List.map_nil]
  rw [map_getD_range l rowDefault]
  rfl

/-- Claim C1 (amended): the split sorts bids by price descending and
asks by price ascending; when a side has at most 16 rows the underlying
numpy quicksort is a single insertion-sort pass and therefore stable, so
the side equals the spec's stable sort (equal-price rows keep their
original relative order, as in the widget.csv scenario).  For a longer
side the quicksort partition can reorder equal-price rows, so stability
fails in general (see the counterexample). -/
theorem C1_split_sorted_stable_small (snap : List Row)
    (hb : (snap.filter (fun r => r.side == "bid")).length ≤ 16)
    (ha : (snap.filter (fun r => r.side == "ask")).length ≤ 16) :
    (splitSnap snap).1 = specStableSortDesc (snap.filter (fun r => r.side == "bid")) ∧
    (splitSnap snap).2 = specStableSortAsc (snap.filter (fun r => r.side == "ask")) :=
  ⟨sort_values_desc_eq_spec _ hb, sort_values_asc_eq_spec _ ha⟩

/-- Witness for C1 at the widget.csv scenario: both side bounds hold,
the theorem applies, and the resulting bids keep the two equal-price
rows in input order while asks hold the single ask row. -/
theorem C1_split_sorted_stable_small_witness :
    ((widgetSnap.filter (fun r => r.side == "bid")).length ≤ 16 ∧
     (widgetSnap.filter (fun r => r.side == "ask")).length ≤ 16) ∧
    (splitSnap widgetSnap).1 =
      specStableSortDesc (widgetSnap.filter (fun r => r.side == "bid")) ∧
    (splitSnap widgetSnap).1 =
      [{ key := some 1, side := "bid", price_vnd := 100, quantity := 5 },
       { key := some 1, side := "bid", price_vnd := 100, quantity := 3 }] ∧
    (splitSnap widgetSnap).2 =
      [{ key := some 1, side := "ask", price_vnd := 110, quantity := 2 }] :=
  ⟨⟨by decide, by decide⟩,
   (C1_split_sorted_stable_small widgetSnap (by decide) (by decide)).1,
   by decide, by decide⟩

/-- A snapshot of 17 bid rows, all at the same price, with quantities
0..16 recording the input order. -/
def stress17 : List Row :=
  (List.range 17).map (fun i =>
    { key := some 1, side := "bid", price_vnd := 100, quantity := (i : Int) })

/-- Counterexample to C1 as stated: with 17 equal-price bid rows a
stable descending sort returns the rows in input order, but the split's
quicksort does not (the partition pass permutes equal keys), so the
claimed stability fails for this loaded table. -/
theorem C1_counterexample :
    (splitSnap stress17).1 ≠
      specStableSortDesc (stress17.filter (fun r => r.side == "bid")) := by decide

/-! ## Catalog discovery facts (C4) -/

/-- File insertion conses the new file somewhere: a permutation. -/
theorem insFileByName_perm (f : DirFile) (l : List DirFile) :
    (insFileByName f l).Perm (f :: l) := by
  induction l with
  | nil => exact .refl _
  | cons g t ih =>
    simp only [insFileByName]
    split
    · exact .refl _
    · exact (ih.cons g).trans (List.Perm.swap f g t)

/-- Python sorted keeps exactly the input files. -/
theorem pySortedFiles_perm (l : List DirFile) : (pySortedFiles l).Perm l := by
  have h := foldl_ins_perm insFileByName insFileByName_perm l []
  simpa [pySortedFiles] using h

/-- File insertion keeps the name order. -/
theorem insFileByName_pairwise (l : List DirFile) (f : DirFile)
    (hp : l.Pairwise (fun a b => a.name ≤ b.name)) :
    (insFileByName f l).Pairwise (fun a b => a.name ≤ b.name) := by
  induction l with
  | nil => simp [insFileByName]
  | cons g t ih =>
    simp only [insFileByName]
    split
    · rename_i hlt
      refine List.Pairwise.cons ?_ hp
      intro x hx
      rcases List.mem_cons.mp hx with rfl | hxt
      · exact le_of_lt hlt
      · exact le_trans (le_of_lt hlt) ((List.pairwise_cons.mp hp).1 x hxt)
    · rename_i hge
      refine List.Pairwise.cons ?_ (ih (List.pairwise_cons.mp hp).2)
      intro x hx
      have hx' : x ∈ f :: t := (insFileByName_perm f t).mem_iff.mp hx
      rcases List.mem_cons.mp hx' with rfl | hxt
      · exact not_lt.mp hge
      · exact (List.pairwise_cons.mp hp).1 x hxt

/-- Python sorted produces a name-ascending list. -/
theorem pySortedFiles_pairwise (l : List DirFile) :
    (pySortedFiles l).Pairwise (fun a b => a.name ≤ b.name) := by
  unfold pySortedFiles
  suffices h : ∀ (acc : List DirFile), acc.Pairwise (fun a b => a.name ≤ b.name) →
      (l.foldl (fun acc f => insFileByName f acc) acc).Pairwise (fun a b => a.name ≤ b.name) by
    exact h [] (by simp)
  induction l with
  | nil => intro acc h; simpa using h
  | cons f t ih =>
    intro acc hacc
    simp only [List.foldl_cons]
    exact ih _ (insFileByName_pairwise acc f hacc)

/-- The header qualification, spelled out. -/
theorem sniffOk_iff (f : DirFile) :
    sniffOk f = true ↔
    ∃ cols, f.sniff = .ok cols ∧ "side" ∈ cols ∧ "price_vnd" ∈ cols ∧ "quantity" ∈ cols := by
  unfold sniffOk
  cases hs : f.sniff with
  | error e => simp
  | ok cols =>
    simp only [Except.ok.injEq]
    constructor
    · intro h
      refine ⟨cols, rfl, ?_, ?_, ?_⟩ <;>
        · simp only [requiredCols, List.all_cons, List.all_nil, Bool.and_eq_true] at h
          first
          | exact List.elem_iff.mp h.1
          | exact List.elem_iff.mp h.2.1
          | exact List.elem_iff.mp h.2.2.1
    · rintro ⟨cols2, hc2, h1, h2, h3⟩
      obtain rfl : cols2 = cols := hc2.symm
      simp only [requiredCols, List.all_cons, List.all_nil, Bool.and_eq_true]
      exact ⟨List.elem_iff.mpr h1, List.elem_iff.mpr h2, List.elem_iff.mpr h3, trivial⟩

/-- Claim C4: catalog discovery returns exactly the files matched by the
*.csv glob that are not denylisted (exact, case-sensitive name match)
and whose sniffed header contains side, price_vnd and quantity; files
whose classification read fails are silently excluded (sniffOk is false
for them, no error escapes); the result is in ascending (lexicographic)
filename order. -/
theorem C4_orderbook_files (dir : List DirFile) :
    (∀ f, f ∈ orderbook_files dir ↔
      (f ∈ dir ∧ globCsvMatch f.name = true ∧ f.name ∉ ignoreList ∧
       ∃ cols, f.sniff = .ok cols ∧ "side" ∈ cols ∧ "price_vnd" ∈ cols ∧
         "quantity" ∈ cols)) ∧
    (orderbook_files dir).Pairwise (fun a b => a.name ≤ b.name) := by
  constructor
  · intro f
    unfold orderbook_files possible_csvs
    rw [List.mem_filter,
      (pySortedFiles_perm (dir.filter
        (fun f => globCsvMatch f.name && !(ignoreList.contains f.name)))).mem_iff,
      List.mem_filter]
    constructor
    · rintro ⟨⟨hmem, hflt⟩, hok⟩
      simp only [Bool.and_eq_true, Bool.not_eq_true'] at hflt
      refine ⟨hmem, hflt.1, ?_, (sniffOk_iff f).mp hok⟩
      intro hin
      have : ignoreList.contains f.name = true := List.elem_iff.mpr hin
      rw [this] at hflt
      exact absurd hflt.2 (by simp)
    · rintro ⟨hmem, hglob, hnotin, hhdr⟩
      refine ⟨⟨hmem, ?_⟩, (sniffOk_iff f).mpr hhdr⟩
      simp only [Bool.and_eq_true, Bool.not_eq_true']
      refine ⟨hglob, ?_⟩
      by_contra hcon
      rw [Bool.not_eq_false] at hcon
      exact hnotin (List.elem_iff.mp hcon)
  · exact (pySortedFiles_pairwise _).filter _

/-- Concrete files for the discovery witness. -/
def catFileA : DirFile :=
  { name := "widget.csv", sniff := .ok ["side", "price_vnd", "quantity", "created_at"],
    full := .error () }

/-- A denylisted file whose header would qualify. -/
def catFileDeny : DirFile :=
  { name := "steam_prices.csv", sniff := .ok ["side", "price_vnd", "quantity"],
    full := .error () }

/-- A file whose classification read fails. -/
def catFileBad : DirFile := { name := "zbad.csv", sniff := .error (), full := .error () }

/-- A concrete directory for the discovery witness. -/
def catDir : List DirFile := [catFileDeny, catFileA, catFileBad]

/-- Witness for C4: the qualifying file is discovered, the denylisted
file and the unreadable file are not. -/
theorem C4_orderbook_files_witness :
    catFileA ∈ orderbook_files catDir ∧
    catFileDeny ∉ orderbook_files catDir ∧
    catFileBad ∉ orderbook_files catDir := by
  refine ⟨?_, ?_, ?_⟩
  · exact ((C4_orderbook_files catDir).1 catFileA).mpr
      ⟨List.mem_cons_of_mem _ (List.mem_cons_self _ _), by decide, by decide,
       ["side", "price_vnd", "quantity", "created_at"], rfl, by decide, by decide, by decide⟩
  · intro h
    exact (((C4_orderbook_files catDir).1 catFileDeny).mp h).2.2.1 (by decide)
  · intro h
    rcases (((C4_orderbook_files catDir).1 catFileBad).mp h).2.2.2 with ⟨cols, hcols, -⟩
    exact Except.noConfusion hcols

/-! ## Loader facts (C5-C8) -/

/-- Default raw row (missing cells). -/
def rawRowDefault : RawRow :=
  { ts := none, created := none, side := "", price_vnd := 0, quantity := 0 }

/-- Binding an ok result steps the Except computation. -/
theorem except_bind_ok {α β : Type} (a : α) (f : α → Except Unit β) :
    ((Except.ok a : Except Unit α) >>= f) = f a := rfl

/-- Binding an error short-circuits the Except computation. -/
theorem except_bind_error {α β : Type} (e : Unit) (f : α → Except Unit β) :
    ((Except.error e : Except Unit α) >>= f) = Except.error e := rfl

/-- Characterisation of a successful load. -/
theorem loadTable_ok_iff (dtParse : String → Option Nat) (rt : RawTable) (t : LoadedTable) :
    loadTable dtParse rt = .ok t ↔
    ∃ tsKeys createdKeys, tsColResult dtParse rt = .ok tsKeys ∧
      createdColResult dtParse rt = .ok createdKeys ∧
      t = { cols := rt.cols,
            rows := mkRows rt.rows (keyColumn tsKeys createdKeys rt) } := by
  unfold loadTable
  cases hts : tsColResult dtParse rt with
  | error e =>
    rw [except_bind_error]
    simp [hts]
  | ok tsKeys =>
    rw [except_bind_ok]
    cases hcr : createdColResult dtParse rt with
    | error e =>
      rw [except_bind_error]
      simp [hcr]
    | ok createdKeys =>
      rw [except_bind_ok]
      simp only [Except.ok.injEq]
      constructor
      · intro h
        exact ⟨tsKeys, createdKeys, rfl, rfl, h.symm⟩
      · rintro ⟨ts2, cr2, hts2, hcr2, ht⟩
        obtain rfl : ts2 = tsKeys := hts2.symm
        obtain rfl : cr2 = createdKeys := hcr2.symm
        exact ht.symm

/-- A successful load keeps the source column set. -/
theorem loadTable_cols (dtParse : String → Option Nat) (rt : RawTable) (t : LoadedTable)
    (h : loadTable dtParse rt = .ok t) : t.cols = rt.cols := by
  rcases (loadTable_ok_iff dtParse rt t).mp h with ⟨ts, cr, -, -, rfl⟩
  rfl

/-- Column conversion preserves length. -/
theorem to_datetime_col_length (dtParse : String → Option Nat) :
    ∀ (cells : List (Option String)) (ks : List (Option Nat)),
    to_datetime_col dtParse cells = .ok ks → ks.length = cells.length := by
  intro cells
  induction cells with
  | nil =>
    intro ks h
    simp only [to_datetime_col, Except.ok.injEq] at h
    rw [← h]
    rfl
  | cons c t ih =>
    intro ks h
    simp only [to_datetime_col] at h
    cases hc : to_datetime_cell dtParse c with
    | error e => rw [hc, except_bind_error] at h; exact absurd h (by simp)
    | ok v =>
      rw [hc, except_bind_ok] at h
      cases hrest : to_datetime_col dtParse t with
      | error e => rw [hrest, except_bind_error] at h; exact absurd h (by simp)
      | ok vs =>
        rw [hrest, except_bind_ok] at h
        have := ih vs hrest
        simp only [Except.ok.injEq] at h
        rw [← h]
        simp [this]

/-- Positional view of a successful column conversion. -/
theorem to_datetime_col_getD (dtParse : String → Option Nat) :
    ∀ (cells : List (Option String)) (ks : List (Option Nat)),
    to_datetime_col dtParse cells = .ok ks →
    ∀ i, i < cells.length →
      to_datetime_cell dtParse (cells.getD i none) = .ok (ks.getD i none) := by
  intro cells
  induction cells with
  | nil => intro ks _ i hi; simp at hi
  | cons c t ih =>
    intro ks h i hi
    simp only [to_datetime_col] at h
    cases hc : to_datetime_cell dtParse c with
    | error e => rw [hc, except_bind_error] at h; exact absurd h (by simp)
    | ok v =>
      rw [hc, except_bind_ok] at h
      cases hrest : to_datetime_col dtParse t with
      | error e => rw [hrest, except_bind_error] at h; exact absurd h (by simp)
      | ok vs =>
        rw [hrest, except_bind_ok] at h
        simp only [Except.ok.injEq] at h
        rw [← h]
        cases i with
        | zero => simpa using hc
        | succ m => simpa using ih vs hrest m (by simpa using hi)

/-- A bad (present but unparseable) cell aborts the conversion. -/
theorem to_datetime_col_error_of_bad (dtParse : String → Option Nat) :
    ∀ (cells : List (Option String)),
    (∃ c ∈ cells, ∃ s, c = some s ∧ dtParse s = none) →
    to_datetime_col dtParse cells = .error () := by
  intro cells
  induction cells with
  | nil => rintro ⟨c, hc, -⟩; simp at hc
  | cons c t ih =>
    rintro ⟨c2, hc2, s, hcs, hbad⟩
    rcases List.mem_cons.mp hc2 with rfl | hct
    · simp only [to_datetime_col]
      have : to_datetime_cell dtParse c2 = .error () := by
        rw [hcs]
        simp [to_datetime_cell, hbad]
      rw [this, except_bind_error]
    · simp only [to_datetime_col]
      cases hc : to_datetime_cell dtParse c with
      | error e => rw [except_bind_error]
      | ok v =>
        rw [except_bind_ok, ih ⟨c2, hct, s, hcs, hbad⟩, except_bind_error]

/-- mkRows preserves row count when the key list is long enough. -/
theorem mkRows_length (rrows : List RawRow) (keys : List (Option Nat))
    (h : rrows.length ≤ keys.length) : (mkRows rrows keys).length = rrows.length := by
  simp [mkRows]
  omega

/-- Positional view of mkRows. -/
theorem mkRows_getD (rrows : List RawRow) (keys : List (Option Nat)) :
    ∀ i, i < rrows.length → i < keys.length →
    (mkRows rrows keys).getD i rowDefault =
      { key := keys.getD i none, side := (rrows.getD i rawRowDefault).side,
        price_vnd := (rrows.getD i rawRowDefault).price_vnd,
        quantity := (rrows.getD i rawRowDefault).quantity } := by
  intro i h1 h2
  have hz : i < (rrows.zip keys).length := by simp; omega
  have hm : i < (mkRows rrows keys).length := by simpa [mkRows] using hz
  rw [List.getD_eq_getElem _ _ hm]
  simp only [mkRows, List.getElem_map, List.getElem_zip]
  rw [List.getD_eq_getElem _ _ h1, List.getD_eq_getElem _ _ h2]

/-- getD through a map, in range. -/
theorem getD_map_of_lt {α β : Type} (f : α → β) (l : List α) (d : α) (i : Nat)
    (h : i < l.length) : (l.map f).getD i (f d) = f (l.getD i d) := by
  rw [List.getD_eq_getElem _ _ (by simpa using h), List.getElem_map,
    List.getD_eq_getElem _ _ h]

/-- Claim C5: the snapshot key column is the timestamp column when it
exists, else the created_at column when it exists; with neither column
every row gets the single implicit snapshot (key none) and the snapshot
stage returns the whole table unfiltered for any selection. -/
theorem C5_snap_col_selection (dtParse : String → Option Nat) (rt : RawTable)
    (t : LoadedTable) (h : loadTable dtParse rt = .ok t) :
    t.cols = rt.cols ∧
    (rt.cols.contains "timestamp" = true →
      snap_col rt.cols = some .timestamp ∧
      ∀ i, i < rt.rows.length →
        to_datetime_cell dtParse ((rt.rows.getD i rawRowDefault).ts) =
          .ok ((t.rows.getD i rowDefault).key)) ∧
    (rt.cols.contains "timestamp" = false → rt.cols.contains "created_at" = true →
      snap_col rt.cols = some .created_at ∧
      ∀ i, i < rt.rows.length →
        to_datetime_cell dtParse ((rt.rows.getD i rawRowDefault).created) =
          .ok ((t.rows.getD i rowDefault).key)) ∧
    (rt.cols.contains "timestamp" = false → rt.cols.contains "created_at" = false →
      snap_col rt.cols = none ∧ (∀ r ∈ t.rows, r.key = none) ∧
      ∀ chosen, tab3SnapDf dtParse t chosen = .ok t.rows) := by
  rcases (loadTable_ok_iff dtParse rt t).mp h with ⟨tsKeys, createdKeys, hts, hcr, rfl⟩
  refine ⟨rfl, ?_, ?_, ?_⟩
  · intro hcol
    have hsc : snap_col rt.cols = some .timestamp := by
      unfold snap_col
      rw [if_pos hcol]
    refine ⟨hsc, ?_⟩
    intro i hi
    have htsc : to_datetime_col dtParse (rt.rows.map (·.ts)) = .ok tsKeys := by
      rw [← hts]
      unfold tsColResult
      rw [if_pos hcol]
    have hlen : tsKeys.length = rt.rows.length := by
      simpa using to_datetime_col_length dtParse _ _ htsc
    have hcell := to_datetime_col_getD dtParse _ _ htsc i (by simpa using hi)
    have hkey : keyColumn tsKeys createdKeys rt = tsKeys := by
      unfold keyColumn
      rw [hsc]
    have hcells : ((rt.rows.map (·.ts)).getD i none) = (rt.rows.getD i rawRowDefault).ts :=
      getD_map_of_lt (fun rr : RawRow => rr.ts) rt.rows rawRowDefault i hi
    rw [hcells] at hcell
    show _ = Except.ok (((mkRows rt.rows (keyColumn tsKeys createdKeys rt)).getD i rowDefault).key)
    rw [hkey, mkRows_getD rt.rows tsKeys i hi (by omega)]
    exact hcell
  · intro hcol hcol2
    have hsc : snap_col rt.cols = some .created_at := by
      unfold snap_col
      rw [if_neg (by rw [hcol]; exact Bool.false_ne_true), if_pos hcol2]
    refine ⟨hsc, ?_⟩
    intro i hi
    have hcrc : to_datetime_col dtParse (rt.rows.map (·.created)) = .ok createdKeys := by
      rw [← hcr]
      unfold createdColResult
      rw [if_pos hcol2]
    have hlen : createdKeys.length = rt.rows.length := by
      simpa using to_datetime_col_length dtParse _ _ hcrc
    have hcell := to_datetime_col_getD dtParse _ _ hcrc i (by simpa using hi)
    have hkey : keyColumn tsKeys createdKeys rt = createdKeys := by
      unfold keyColumn
      rw [hsc]
    have hcells : ((rt.rows.map (·.created)).getD i none) =
        (rt.rows.getD i rawRowDefault).created :=
      getD_map_of_lt (fun rr : RawRow => rr.created) rt.rows rawRowDefault i hi
    rw [hcells] at hcell
    show _ = Except.ok (((mkRows rt.rows (keyColumn tsKeys createdKeys rt)).getD i rowDefault).key)
    rw [hkey, mkRows_getD rt.rows createdKeys i hi (by omega)]
    exact hcell
  · intro hcol hcol2
    have hsc : snap_col rt.cols = none := by
      unfold snap_col
      rw [if_neg (by rw [hcol]; exact Bool.false_ne_true),
        if_neg (by rw [hcol2]; exact Bool.false_ne_true)]
    have hkey : keyColumn tsKeys createdKeys rt = rt.rows.map (fun _ => none) := by
      unfold keyColumn
      rw [hsc]
    refine ⟨hsc, ?_, ?_⟩
    · intro r hr
      simp only [hkey, mkRows] at hr
      rcases List.mem_map.mp hr with ⟨rk, hrk, hrkr⟩
      have hk2 := (List.of_mem_zip hrk).2
      rcases List.mem_map.mp hk2 with ⟨-, -, hnone⟩
      rw [← hrkr]
      exact hnone.symm
    · intro chosen
      unfold tab3SnapDf
      dsimp only
      rw [hsc]

/-- A concrete raw file keyed by created_at for the C5 witness. -/
def c5raw : RawTable :=
  { cols := ["side", "price_vnd", "quantity", "created_at"],
    rows := [{ ts := none, created := some "7", side := "bid", price_vnd := 100, quantity := 5 }] }

/-- The table c5raw loads to. -/
def c5t : LoadedTable :=
  { cols := ["side", "price_vnd", "quantity", "created_at"],
    rows := [{ key := some 7, side := "bid", price_vnd := 100, quantity := 5 }] }

/-- Witness for C5: the created_at column is chosen when timestamp is
absent, and the parsed key lands on the row. -/
theorem C5_snap_col_selection_witness :
    loadTable natParse c5raw = .ok c5t ∧
    snap_col c5raw.cols = some .created_at ∧
    to_datetime_cell natParse ((c5raw.rows.getD 0 rawRowDefault).created) =
      .ok ((c5t.rows.getD 0 rowDefault).key) :=
  ⟨rfl, ((C5_snap_col_selection natParse c5raw c5t rfl).2.2.1 rfl rfl).1,
   ((C5_snap_col_selection natParse c5raw c5t rfl).2.2.1 rfl rfl).2 0 (by decide)⟩

/-- Claim C6 (amended): with a timestamp column present, a row whose
timestamp cell holds a value the datetime parser rejects makes the whole
load fail with an error (pd.to_datetime raises in its default errors
mode) — the row is not retained.  Only a missing (empty) cell becomes
the missing-value marker: such a row is retained with key none, and rows
with a missing key are never selected by the snapshot filter. -/
theorem C6_parse_failure (dtParse : String → Option Nat) (rt : RawTable)
    (hcol : rt.cols.contains "timestamp" = true) :
    ((∃ rr ∈ rt.rows, ∃ s, rr.ts = some s ∧ dtParse s = none) →
      loadTable dtParse rt = .error ()) ∧
    (∀ t, loadTable dtParse rt = .ok t →
      ∀ i, i < rt.rows.length → (rt.rows.getD i rawRowDefault).ts = none →
        (t.rows.getD i rowDefault).key = none) ∧
    (∀ t chosen sel, loadTable dtParse rt = .ok t →
      tab3SnapDf dtParse t chosen = .ok sel →
      ∀ r ∈ sel, r.key ≠ none) := by
  have hsc : snap_col rt.cols = some .timestamp := by
    unfold snap_col
    rw [if_pos hcol]
  refine ⟨?_, ?_, ?_⟩
  · rintro ⟨rr, hrr, s, hms, hbad⟩
    have hbadcol : to_datetime_col dtParse (rt.rows.map (·.ts)) = .error () :=
      to_datetime_col_error_of_bad dtParse _
        ⟨rr.ts, List.mem_map.mpr ⟨rr, hrr, rfl⟩, s, hms, hbad⟩
    have hts : tsColResult dtParse rt = .error () := by
      unfold tsColResult
      rw [if_pos hcol, hbadcol]
    unfold loadTable
    rw [hts, except_bind_error]
  · intro t hload i hi hmiss
    rcases (loadTable_ok_iff dtParse rt t).mp hload with ⟨tsKeys, createdKeys, hts, hcr, rfl⟩
    have htsc : to_datetime_col dtParse (rt.rows.map (·.ts)) = .ok tsKeys := by
      rw [← hts]
      unfold tsColResult
      rw [if_pos hcol]
    have hlen : tsKeys.length = rt.rows.length := by
      simpa using to_datetime_col_length dtParse _ _ htsc
    have hcell := to_datetime_col_getD dtParse _ _ htsc i (by simpa using hi)
    have hcells : ((rt.rows.map (·.ts)).getD i none) = (rt.rows.getD i rawRowDefault).ts :=
      getD_map_of_lt (fun rr : RawRow => rr.ts) rt.rows rawRowDefault i hi
    rw [hcells, hmiss] at hcell
    have hknone : tsKeys.getD i none = none := by
      have : to_datetime_cell dtParse none = Except.ok (none : Option Nat) := rfl
      rw [this] at hcell
      exact ((Except.ok.injEq _ _).mp hcell).symm
    have hkey : keyColumn tsKeys createdKeys rt = tsKeys := by
      unfold keyColumn
      rw [hsc]
    show ((mkRows rt.rows (keyColumn tsKeys createdKeys rt)).getD i rowDefault).key = none
    rw [hkey, mkRows_getD rt.rows tsKeys i hi (by omega)]
    exact hknone
  · intro t chosen sel hload hsnap r hr
    have hcols : t.cols = rt.cols := loadTable_cols dtParse rt t hload
    unfold tab3SnapDf at hsnap
    rw [hcols, hsc] at hsnap
    cases hp : parseChosen dtParse chosen with
    | error e =>
      rw [hp, except_bind_error] at hsnap
      exact absurd hsnap (by simp)
    | ok k =>
      rw [hp, except_bind_ok] at hsnap
      have hsel : sel = t.rows.filter (fun r => keyEq r.key k) := by
        simpa using hsnap.symm
      rw [hsel] at hr
      have hkeq := List.of_mem_filter hr
      intro hnone
      rw [hnone] at hkeq
      simp [keyEq] at hkeq

/-- A concrete raw file with an unparseable timestamp value. -/
def c6raw : RawTable :=
  { cols := ["timestamp", "side", "price_vnd", "quantity"],
    rows := [{ ts := some "notadate", created := none, side := "bid",
               price_vnd := 100, quantity := 1 }] }

/-- Counterexample to C6 as stated: the claim says a load with an
unparseable timestamp value still succeeds with the row retained under a
missing-value key; in fact the load fails outright. -/
theorem C6_counterexample : loadTable natParse c6raw = .error () := rfl

/-- A concrete raw file with a missing timestamp cell next to a good
one. -/
def c6rawMissing : RawTable :=
  { cols := ["timestamp", "side", "price_vnd", "quantity"],
    rows := [{ ts := none, created := none, side := "bid", price_vnd := 100, quantity := 1 },
             { ts := some "5", created := none, side := "ask", price_vnd := 110, quantity := 2 }] }

/-- Witness for C6 (amended): the bad-value case errors on c6raw, and on
c6rawMissing the missing-cell row is retained with key none. -/
theorem C6_parse_failure_witness :
    loadTable natParse c6raw = .error () ∧
    (∃ t, loadTable natParse c6rawMissing = .ok t ∧
      (t.rows.getD 0 rowDefault).key = none) :=
  ⟨(C6_parse_failure natParse c6raw rfl).1
    ⟨{ ts := some "notadate", created := none, side := "bid", price_vnd := 100, quantity := 1 },
     List.mem_cons_self _ _, "notadate", rfl, rfl⟩,
   ⟨{ cols := ["timestamp", "side", "price_vnd", "quantity"],
      rows := [{ key := none, side := "bid", price_vnd := 100, quantity := 1 },
               { key := some 5, side := "ask", price_vnd := 110, quantity := 2 }] },
    rfl,
    (C6_parse_failure natParse c6rawMissing rfl).2.1 _ rfl 0 (by decide) rfl⟩⟩

/-- Claim C7 (amended): the full read of the selected file (line 439) is
not wrapped in any try/except, so a read failure propagates out of the
view as an uncaught exception instead of a "no data for this file"
state; only the classification read is guarded. -/
theorem C7_full_read_failure (dtParse : String → Option Nat) (dir : List DirFile)
    (f : DirFile) (hmem : f ∈ orderbook_files dir) (hfail : f.full = .error ()) :
    tab3Load dtParse f = .error () := by
  unfold tab3Load
  rw [hfail, except_bind_error]

/-- A discoverable file whose later full read fails. -/
def c7file : DirFile :=
  { name := "widget.csv", sniff := .ok ["side", "price_vnd", "quantity"], full := .error () }

/-- A directory holding only c7file. -/
def c7dir : List DirFile := [c7file]

/-- Counterexample to C7 as stated: the claim says a failing full read
surfaces as a "no data" condition rather than an uncaught exception; in
fact the error propagates out of the load (the model's error value
stands for the uncaught exception). -/
theorem C7_counterexample :
    c7file ∈ orderbook_files c7dir ∧ tab3Load natParse c7file = .error () :=
  ⟨show c7file ∈ [c7file] from List.mem_singleton.mpr rfl, rfl⟩

/-- Witness for C7 (amended) at the concrete directory. -/
theorem C7_full_read_failure_witness :
    c7file ∈ orderbook_files c7dir ∧ tab3Load natParse c7file = .error () :=
  ⟨show c7file ∈ [c7file] from List.mem_singleton.mpr rfl,
   C7_full_read_failure natParse c7dir c7file
     (show c7file ∈ [c7file] from List.mem_singleton.mpr rfl) rfl⟩

/-- Claim C8: the snapshot export writes the pre-partition snapshot rows
(exactly the rows selected by the key filter, both sides together,
including rows whose side is neither bid nor ask) with the same column
set as the source file. -/
theorem C8_snapshot_export (dtParse : String → Option Nat) (f : DirFile) (rt : RawTable)
    (t : LoadedTable) (chosen : String) (out : List String × List Row)
    (hfull : f.full = .ok rt) (hload : loadTable dtParse rt = .ok t)
    (hexp : tab3Export dtParse f chosen = .ok out) :
    out.1 = rt.cols ∧
    (∃ sel, tab3SnapDf dtParse t chosen = .ok sel ∧ out.2 = sel) ∧
    (snap_col rt.cols = none → out.2 = t.rows) ∧
    (∀ c, snap_col rt.cols = some c →
      ∃ k, parseChosen dtParse chosen = .ok k ∧
        ∀ r, r ∈ out.2 ↔ r ∈ t.rows ∧ keyEq r.key k = true) := by
  have hcols : t.cols = rt.cols := loadTable_cols dtParse rt t hload
  unfold tab3Export tab3Load at hexp
  rw [hfull, except_bind_ok, hload, except_bind_ok] at hexp
  cases hsnap : tab3SnapDf dtParse t chosen with
  | error e =>
    rw [hsnap, except_bind_error] at hexp
    exact absurd hexp (by simp)
  | ok sel =>
    rw [hsnap, except_bind_ok] at hexp
    have hout : out = (t.cols, sel) := by simpa using hexp.symm
    refine ⟨by rw [hout, hcols], ⟨sel, rfl, by rw [hout]⟩, ?_, ?_⟩
    · intro hnone
      unfold tab3SnapDf at hsnap
      rw [hcols, hnone] at hsnap
      have : sel = t.rows := by simpa using hsnap.symm
      rw [hout]
      exact this
    · intro c hc
      unfold tab3SnapDf at hsnap
      rw [hcols, hc] at hsnap
      cases hp : parseChosen dtParse chosen with
      | error e =>
        rw [hp, except_bind_error] at hsnap
        exact absurd hsnap (by simp)
      | ok k =>
        rw [hp, except_bind_ok] at hsnap
        have hsel : sel = t.rows.filter (fun r => keyEq r.key k) := by simpa using hsnap.symm
        refine ⟨k, rfl, ?_⟩
        intro r
        rw [hout]
        show r ∈ sel ↔ _
        rw [hsel, List.mem_filter]

/-- A readable raw file for the C8 witness: one snapshot key, three
rows, one of them with a side that is neither bid nor ask. -/
def c8raw : RawTable :=
  { cols := ["timestamp", "side", "price_vnd", "quantity"],
    rows := [{ ts := some "9", created := none, side := "bid", price_vnd := 100, quantity := 5 },
             { ts := some "9", created := none, side := "weird", price_vnd := 1, quantity := 1 },
             { ts := some "9", created := none, side := "ask", price_vnd := 110, quantity := 2 }] }

/-- The C8 witness file. -/
def c8file : DirFile :=
  { name := "widget.csv", sniff := .ok ["side", "price_vnd", "quantity"], full := .ok c8raw }

/-- The table c8raw loads to. -/
def c8t : LoadedTable :=
  { cols := ["timestamp", "side", "price_vnd", "quantity"],
    rows := [{ key := some 9, side := "bid", price_vnd := 100, quantity := 5 },
             { key := some 9, side := "weird", price_vnd := 1, quantity := 1 },
             { key := some 9, side := "ask", price_vnd := 110, quantity := 2 }] }

/-- Witness for C8: exporting snapshot "9" reproduces all three rows,
including the row whose side is neither bid nor ask, under the source
column set. -/
theorem C8_snapshot_export_witness :
    tab3Export natParse c8file "9" = .ok (c8raw.cols, c8t.rows) ∧
    (tab3Export natParse c8file "9").toOption.map Prod.fst = some c8raw.cols ∧
    (∃ k, parseChosen natParse "9" = .ok k ∧
      ∀ r, r ∈ (c8raw.cols, c8t.rows).2 ↔ r ∈ c8t.rows ∧ keyEq r.key k = true) :=
  ⟨rfl, rfl,
   (C8_snapshot_export natParse c8file c8raw c8t "9" (c8raw.cols, c8t.rows)
     rfl rfl rfl).2.2.2 .timestamp rfl⟩

/-! ## Snapshot key round-trip (C10) -/

/-- Value of a little-endian digit list. -/
def valLE : List Nat → Nat := List.foldr (fun d acc => d + 10 * acc) 0

/-- toDigitsRev computes the digits of n, each below 10. -/
theorem toDigitsRev_spec : ∀ (fuel n : Nat), n ≤ fuel →
    valLE (toDigitsRev fuel n) = n ∧ ∀ d ∈ toDigitsRev fuel n, d < 10 := by
  intro fuel
  induction fuel with
  | zero =>
    intro n hn
    obtain rfl : n = 0 := by omega
    exact ⟨rfl, by simp [toDigitsRev, valLE]⟩
  | succ fuel ih =>
    intro n hn
    by_cases h10 : n < 10
    · simp only [toDigitsRev, if_pos h10]
      exact ⟨by simp [valLE], by simpa using h10⟩
    · simp only [toDigitsRev, if_neg h10]
      have hdiv : n / 10 ≤ fuel := by omega
      rcases ih (n / 10) hdiv with ⟨hval, hdig⟩
      constructor
      · simp only [valLE, List.foldr_cons] at *
        rw [hval]
        omega
      · intro d hd
        rcases List.mem_cons.mp hd with rfl | hmem
        · omega
        · exact hdig d hmem

/-- Parsing distributes over appending character lists. -/
theorem parseNatAux_append : ∀ (l1 l2 : List Char) (acc : Nat),
    parseNatAux (l1 ++ l2) acc =
      (match parseNatAux l1 acc with
       | none => none
       | some a => parseNatAux l2 a) := by
  intro l1
  induction l1 with
  | nil => intro l2 acc; rfl
  | cons c t ih =>
    intro l2 acc
    simp only [List.cons_append, parseNatAux]
    cases digitVal c with
    | none => rfl
    | some d => exact ih l2 (acc * 10 + d)

/-- digitVal inverts digitChar on digits. -/
theorem digitVal_digitChar (d : Nat) (h : d < 10) : digitVal (digitChar d) = some d := by
  interval_cases d <;> decide

/-- Parsing a rendered digit list accumulates the value. -/
theorem parseNatAux_digits : ∀ (le : List Nat) (acc : Nat), (∀ d ∈ le, d < 10) →
    parseNatAux (le.reverse.map digitChar) acc = some (acc * 10 ^ le.length + valLE le) := by
  intro le
  induction le with
  | nil => intro acc _; simp [parseNatAux, valLE]
  | cons d t ih =>
    intro acc hd
    have hrev : (d :: t).reverse.map digitChar =
        (t.reverse.map digitChar) ++ [digitChar d] := by simp
    rw [hrev, parseNatAux_append]
    rw [ih acc (fun x hx => hd x (List.mem_cons_of_mem d hx))]
    simp only [parseNatAux, digitVal_digitChar d (hd d (List.mem_cons_self d t))]
    congr 1
    simp only [valLE, List.foldr_cons, List.length_cons]
    ring

/-- The digit list of a natural is never empty. -/
theorem toDigitsRev_ne_nil (fuel n : Nat) : toDigitsRev fuel n ≠ [] := by
  cases fuel with
  | zero => simp [toDigitsRev]
  | succ fuel =>
    simp only [toDigitsRev]
    split <;> simp

/-- str of a snapshot key parses back to the same key (the non-missing
case of the selectbox round-trip). -/
theorem natParse_renderNat (n : Nat) : natParse (String.mk (renderNat n)) = some n := by
  unfold natParse renderNat
  have hne : ((toDigitsRev n n).reverse.map digitChar) ≠ [] := by
    simp [toDigitsRev_ne_nil n n]
  rw [if_neg (by simpa [List.isEmpty_iff] using hne)]
  rcases toDigitsRev_spec n n (le_refl n) with ⟨hval, hdig⟩
  rw [parseNatAux_digits (toDigitsRev n n) 0 hdig]
  simp [hval]

/-- A rendered key never collides with the missing-value rendering. -/
theorem renderKeySome_ne_NaT (n : Nat) : renderKey (some n) ≠ "NaT" := by
  intro h
  have h1 : natParse (renderKey (some n)) = some n := natParse_renderNat n
  rw [h] at h1
  have h2 : natParse "NaT" = none := rfl
  rw [h2] at h1
  exact Option.noConfusion h1

/-- pandas equality between a key and a present scalar agrees with
plain option equality. -/
theorem keyEq_some (k : Option Nat) (n : Nat) : keyEq k (some n) = (k == some n) := by
  cases k <;> rfl

/-- pandas equality against the missing scalar never holds. -/
theorem keyEq_none (k : Option Nat) : keyEq k none = false := by
  cases k <;> rfl

/-- Claim C10 (amended): for a table with a snapshot key column, a
present (non-missing) key round-trips through its string form: filtering
with the re-parsed selectbox string selects exactly the rows carrying
that key.  The missing key NaT is also offered when present, but its
string form re-parses to NaT, which pandas equality matches against no
row, so it selects nothing. -/
theorem C10_snapshot_roundtrip (t : LoadedTable) (c : KeyCol)
    (hc : snap_col t.cols = some c) (n : Nat) :
    (tab3SnapDf natParse t (renderKey (some n)) =
      .ok (t.rows.filter (fun r => r.key == some n))) ∧
    (tab3SnapDf natParse t (renderKey none) = .ok []) := by
  constructor
  · unfold tab3SnapDf
    rw [hc]
    dsimp only
    have hp : parseChosen natParse (renderKey (some n)) = .ok (some n) := by
      unfold parseChosen
      rw [if_neg (renderKeySome_ne_NaT n)]
      cases hk : renderKey (some n) with
      | mk data =>
        have : natParse (renderKey (some n)) = some n := natParse_renderNat n
        rw [hk] at this
        rw [this]
    rw [hp, except_bind_ok]
    congr 1
    exact List.filter_congr (fun r _ => keyEq_some r.key n)
  · unfold tab3SnapDf
    rw [hc]
    dsimp only
    have hp : parseChosen natParse (renderKey none) = .ok none := rfl
    rw [hp, except_bind_ok]
    congr 1
    exact List.filter_eq_nil_iff.mpr (fun r _ => by simp [keyEq_none])

/-- A raw file with one missing and one present timestamp. -/
def c10raw : RawTable :=
  { cols := ["timestamp", "side", "price_vnd", "quantity"],
    rows := [{ ts := none, created := none, side := "bid", price_vnd := 100, quantity := 1 },
             { ts := some "5", created := none, side := "ask", price_vnd := 110, quantity := 2 }] }

/-- The table c10raw loads to: the missing cell became the NaT key. -/
def c10t : LoadedTable :=
  { cols := ["timestamp", "side", "price_vnd", "quantity"],
    rows := [{ key := none, side := "bid", price_vnd := 100, quantity := 1 },
             { key := some 5, side := "ask", price_vnd := 110, quantity := 2 }] }

/-- Counterexample to C10 as stated: the NaT key is offered for
selection (it is among the distinct keys of the loaded table), but
selecting it matches no rows even though a row carries that key, so the
string round-trip does not select exactly the rows carrying the key. -/
theorem C10_counterexample :
    loadTable natParse c10raw = .ok c10t ∧
    none ∈ availableSnaps c10t ∧
    tab3SnapDf natParse c10t (renderKey none) = .ok [] ∧
    c10t.rows.filter (fun r => r.key == (none : Option Nat)) ≠ [] :=
  ⟨rfl, by decide, rfl, by decide⟩

/-- Witness for C10 (amended) on the concrete loaded table. -/
theorem C10_snapshot_roundtrip_witness :
    snap_col c10t.cols = some KeyCol.timestamp ∧
    tab3SnapDf natParse c10t (renderKey (some 5)) =
      .ok (c10t.rows.filter (fun r => r.key == some 5)) ∧
    c10t.rows.filter (fun r => r.key == some 5) =
      [{ key := some 5, side := "ask", price_vnd := 110, quantity := 2 }] :=
  ⟨rfl, (C10_snapshot_roundtrip c10t .timestamp rfl 5).1, by decide⟩

/-! ## Item name facts (C9) -/

/-- Claim C9 (amended): item_name removes every occurrence of ".csv"
(Python str.replace), which coincides with stripping the trailing
suffix exactly when ".csv" occurs nowhere else — in particular for any
stem containing no dot.  A filename containing ".csv" elsewhere loses
those characters too (see the counterexample). -/
theorem C9_item_name_stem (m : List Char) (hdot : '.' ∉ m) :
    item_name (String.mk (m ++ ".csv".data)) = String.mk m := by
  unfold item_name
  congr 1
  have key : ∀ (m : List Char) (fuel : Nat), '.' ∉ m → m.length + 4 ≤ fuel →
      repAll ".csv".data fuel (m ++ ".csv".data) = m := by
    intro m
    induction m with
    | nil =>
      intro fuel _ hfuel
      cases fuel with
      | zero => omega
      | succ f =>
        rw [List.nil_append]
        have hp : (".csv".data) = '.' :: 'c' :: 's' :: 'v' :: [] := rfl
        rw [hp]
        simp only [repAll]
        rw [if_pos (by decide)]
        simp [repAll]
    | cons c m' ih =>
      intro fuel hdot2 hfuel
      have hc : c ≠ '.' := by
        intro h
        exact hdot2 (h ▸ List.mem_cons_self c m')
      cases fuel with
      | zero => omega
      | succ f =>
        rw [List.cons_append]
        simp only [repAll]
        have hfalse : listStartsWith ".csv".data (c :: (m' ++ ".csv".data)) = false := by
          have hb : (('.' : Char) == c) = false := by
            simpa using fun h => hc h.symm
          simp [listStartsWith, hb]
        rw [if_neg (by rw [hfalse]; exact Bool.false_ne_true)]
        rw [ih f (fun h => hdot2 (List.mem_cons_of_mem c h)) (by simpa using hfuel)]
  apply key
  · exact hdot
  · simp

/-- A discoverable file whose name contains ".csv" twice. -/
def c9file : DirFile :=
  { name := "a.csv.csv", sniff := .ok ["side", "price_vnd", "quantity"], full := .error () }

/-- A directory holding only c9file. -/
def c9dir : List DirFile := [c9file]

/-- Counterexample to C9 as stated: for the discovered file named
"a.csv.csv" the claim predicts the item name "a.csv" (only the trailing
suffix stripped), but str.replace removes both occurrences and yields
"a". -/
theorem C9_counterexample :
    c9file ∈ orderbook_files c9dir ∧
    item_name c9file.name = "a" ∧
    item_name c9file.name ≠ "a.csv" :=
  ⟨show c9file ∈ [c9file] from List.mem_singleton.mpr rfl, by decide, by decide⟩

/-- Witness for C9 (amended) at the stem "widget". -/
theorem C9_item_name_stem_witness :
    ('.' ∉ ['w', 'i', 'd', 'g', 'e', 't']) ∧
    item_name (String.mk (['w', 'i', 'd', 'g', 'e', 't'] ++ ".csv".data)) =
      String.mk ['w', 'i', 'd', 'g', 'e', 't'] ∧
    item_name "widget.csv" = "widget" :=
  ⟨by decide, C9_item_name_stem ['w', 'i', 'd', 'g', 'e', 't'] (by decide), by decide⟩
